import Mathlib

/-!
Verification of the yfinance ETL upsert reconcilers.

Shallow embedding of the repository's per-domain bulk-process functions
(`src/insert_yf/stock_actions.py`, `stock_history.py`, `stock_financials.py`,
`stock_institutional_holders.py`, `stock_mutualfund_holders.py`,
`src/insert_yf/utils.py`, `src/database/client.py`, `src/commands/daily.py`).

Modelling conventions:
* Machine floats from pandas are modelled as `ℚ`;
  a source cell is a `Cell` distinguishing absence, NaN/None, a numeric
  value, and a string whose `float()` conversion either yields a number or
  raises (`Cell.strv none` models an unparseable string).
* A SQLAlchemy table is a `List` of row structures, in insertion order;
  a Python dict comprehension `{key(r): r for r in rows}` maps each key to
  the *last* row with that key, so updating through it patches the last
  matching row of the list.
* Python string slicing `s[:n]` is modelled by `pySlice s n`.
* `datetime.now().isoformat()[:24]` stamps are passed in as an explicit
  `now : String` parameter.
-/

set_option autoImplicit false

namespace YFin

/-- Python string slice `s[:n]`: the first `n` characters of `s`. -/
def pySlice (s : String) (n : Nat) : String := (s.toList.take n).asString

/-- An ASCII whitespace character, for modelling Python `str.strip()`. -/
def pyWhitespace (c : Char) : Bool :=
  c = ' ' ∨ c = '\t' ∨ c = '\n' ∨ c = '\r'

/-- Python `str.strip()`: drop leading and trailing whitespace. -/
def pyStrip (s : String) : String :=
  (((s.toList.dropWhile pyWhitespace).reverse.dropWhile pyWhitespace).reverse).asString

/-- A value read from a pandas snapshot cell or dict entry:
`absent` = key/column not present, `nan` = NaN or `None`,
`num q` = a numeric value, `strv p` = a string whose `float()` conversion
returns `p` (with `p = none` when `float()` raises `ValueError`). -/
inductive Cell where
  | absent
  | nan
  | num (q : ℚ)
  | strv (parsed : Option ℚ)
deriving DecidableEq

/-- The numeric coercion common to `_get_safe_float` (stock_history.py) and the
guarded `float(value)` conversions of the other modules: `none` when the value
is absent, NaN/None, or fails `float()` conversion. -/
def coerceCell : Cell → Option ℚ
  | .absent => none
  | .nan => none
  | .num q => some q
  | .strv p => p

/-! ## Corporate actions (`src/insert_yf/stock_actions.py`) -/

/-- A persisted `actions` table row (models/models.py `Actions`). -/
structure ARow where
  symbol : String
  date : String
  dividends : ℚ
  stock_splits : ℚ
  created_at : String
  updated_at : String
deriving DecidableEq

/-- One row of the incoming `ticker.actions` DataFrame: the raw date index
(stringified) and the `Dividends` / `Stock Splits` cells, where `none` models
an absent column or a NaN value (both of which the source replaces by `0.0`). -/
structure AItem where
  date : String
  dividends : Option ℚ
  stockSplits : Option ℚ
deriving DecidableEq

/-- `row.get('Dividends', 0.0)` with the NaN guard: absent/NaN becomes `0.0`. -/
def AItem.div (it : AItem) : ℚ := it.dividends.getD 0

/-- `row.get('Stock Splits', 0.0)` with the NaN guard. -/
def AItem.sp (it : AItem) : ℚ := it.stockSplits.getD 0

/-- Date normalisation of the actions loop: `strftime('%Y-%m-%d')` for
timestamps, `str(date_index)[:10]` otherwise; both yield the first ten
characters of the ISO string. -/
def AItem.dateStr (it : AItem) : String := pySlice it.date 10

/-- The update branch of `_bulk_process_actions_data`: set `dividends`,
`stock_splits` and `updated_at` on an existing record. -/
def patchARow (dv sp : ℚ) (now : String) (r : ARow) : ARow :=
  { r with dividends := dv, stock_splits := sp, updated_at := now }

/-- The insert branch: a fresh `Actions` record. -/
def mkARow (now sym : String) (it : AItem) : ARow :=
  { symbol := sym, date := it.dateStr, dividends := it.div, stock_splits := it.sp,
    created_at := now, updated_at := now }

/-- Keys of the `existing_records` dict: the dates of the already-persisted
rows of this symbol, in query (= list) order. -/
def actionsKeys (sym : String) : List ARow → List String
  | [] => []
  | r :: rs =>
    if r.symbol = sym then r.date :: actionsKeys sym rs else actionsKeys sym rs

/-- Patch the first row matching `(sym, d)`. -/
def updateFirstA (sym d : String) (dv sp : ℚ) (now : String) : List ARow → List ARow
  | [] => []
  | r :: rs =>
    if r.symbol = sym ∧ r.date = d then patchARow dv sp now r :: rs
    else r :: updateFirstA sym d dv sp now rs

/-- Patch the last row matching `(sym, d)` — the row the `existing_records`
dict comprehension retains for a duplicated key. -/
def updateLastA (sym d : String) (dv sp : ℚ) (now : String) (db : List ARow) : List ARow :=
  (updateFirstA sym d dv sp now db.reverse).reverse

/-- The `for date_index, row in data.iterrows()` loop of
`_bulk_process_actions_data`, carrying the mutable state (the session's rows
`db`, the `new_records` batch, and `updated_count`). -/
def actionsLoop (now sym : String) (keys : List String) :
    List ARow → List ARow → Nat → List AItem → List ARow × List ARow × Nat
  | db, news, upd, [] => (db, news, upd)
  | db, news, upd, it :: rest =>
    if it.div = 0 ∧ it.sp = 0 then
      actionsLoop now sym keys db news upd rest
    else if it.dateStr ∈ keys then
      actionsLoop now sym keys (updateLastA sym it.dateStr it.div it.sp now db) news (upd + 1) rest
    else
      actionsLoop now sym keys db (news ++ [mkARow now sym it]) upd rest

/-- `_bulk_process_actions_data`: returns the table after the bulk insert,
the number of inserted rows and the number of updated rows (the function's
return value in the source is their sum). -/
def processActions (now sym : String) (db : List ARow) (data : List AItem) :
    List ARow × Nat × Nat :=
  let p := actionsLoop now sym (actionsKeys sym db) db [] 0 data
  (p.1 ++ p.2.1, p.2.1.length, p.2.2)

/-! ## Daily price history (`src/insert_yf/stock_history.py`) -/

/-- A persisted `history` table row (models/models.py `History`); `opn` models
the `open` column (`open` is a Lean keyword). -/
structure HRow where
  symbol : String
  date : String
  opn : Option ℚ
  high : Option ℚ
  low : Option ℚ
  close : Option ℚ
  volume : Option ℚ
  created_at : String
  updated_at : String
deriving DecidableEq

/-- One row of the incoming `ticker.history()` DataFrame: the raw date index
(stringified) and the five numeric cells. -/
structure HItem where
  date : String
  opn : Cell
  high : Cell
  low : Cell
  close : Cell
  volume : Cell
deriving DecidableEq

/-- `_format_date`: `strftime('%Y-%m-%dT%H:%M:%S.%fZ')[:24]` for timestamps,
`str(date_index)[:24]` otherwise — the first 24 characters of the ISO string. -/
def HItem.dateStr (it : HItem) : String := pySlice it.date 24

/-- The `record_data` dict built for each row of the snapshot. -/
def mkHRec (now sym : String) (it : HItem) : HRow :=
  { symbol := sym, date := it.dateStr,
    opn := coerceCell it.opn, high := coerceCell it.high, low := coerceCell it.low,
    close := coerceCell it.close, volume := coerceCell it.volume,
    created_at := now, updated_at := now }

/-- The `existing_dates` set: dates of already-persisted rows of this symbol. -/
def histDates (sym : String) : List HRow → List String
  | [] => []
  | r :: rs =>
    if r.symbol = sym then r.date :: histDates sym rs else histDates sym rs

/-- One `session.query(History).filter(symbol, date).update({...})` call:
overwrites the five numeric columns and `updated_at` of *every* row matching
the record's key, unconditionally (also when a value is `None`). -/
def applyHistUpdate (rd : HRow) (db : List HRow) : List HRow :=
  db.map fun r =>
    if r.symbol = rd.symbol ∧ r.date = rd.date then
      { r with opn := rd.opn, high := rd.high, low := rd.low, close := rd.close,
               volume := rd.volume, updated_at := rd.updated_at }
    else r

/-- The row loop of `_process_stock_history_data`, accumulating `new_records`,
`update_records` and `processed_count`. -/
def histLoop (now sym : String) (dates : List String) :
    List HRow → List HRow → Nat → List HItem → List HRow × List HRow × Nat
  | news, upds, cnt, [] => (news, upds, cnt)
  | news, upds, cnt, it :: rest =>
    let rd := mkHRec now sym it
    if it.dateStr ∈ dates then
      histLoop now sym dates news (upds ++ [rd]) (cnt + 1) rest
    else
      histLoop now sym dates (news ++ [rd]) upds (cnt + 1) rest

/-- `_process_stock_history_data`: bulk-inserts the new records, then applies
the per-key updates; returns the final table, the insert count, the update
count and `processed_count` (the function's return value in the source). -/
def processHistory (now sym : String) (db : List HRow) (data : List HItem) :
    List HRow × Nat × Nat × Nat :=
  let p := histLoop now sym (histDates sym db) [] [] 0 data
  let db2 := db ++ p.1
  let db3 := p.2.1.foldl (fun acc rd => applyHistUpdate rd acc) db2
  (db3, p.1.length, p.2.1.length, p.2.2)

/-! ## Financial statements (`src/insert_yf/stock_financials.py`) -/

/-- The field-mapping table of `_update_financials_fields`: destination column
name paired with its candidate source-field names in priority order. -/
def finFieldMappings : List (String × List String) := [
  ("total_revenue", ["Total Revenue", "Operating Revenue"]),
  ("operating_revenue", ["Operating Revenue", "Total Revenue"]),
  ("cost_of_revenue", ["Cost Of Revenue", "Reconciled Cost Of Revenue"]),
  ("gross_profit", ["Gross Profit"]),
  ("operating_expense", ["Operating Expense"]),
  ("operating_income", ["Operating Income", "Total Operating Income As Reported"]),
  ("total_expenses", ["Total Expenses"]),
  ("ebit", ["EBIT"]),
  ("ebitda", ["EBITDA"]),
  ("normalized_ebitda", ["Normalized EBITDA"]),
  ("pretax_income", ["Pretax Income"]),
  ("tax_provision", ["Tax Provision"]),
  ("net_income", ["Net Income"]),
  ("net_income_common_stockholders", ["Net Income Common Stockholders"]),
  ("net_income_continuous_operations", ["Net Income Continuous Operations"]),
  ("normalized_income", ["Normalized Income"]),
  ("interest_income", ["Interest Income"]),
  ("interest_expense", ["Interest Expense"]),
  ("net_interest_income", ["Net Interest Income"]),
  ("interest_income_non_operating", ["Interest Income Non Operating"]),
  ("interest_expense_non_operating", ["Interest Expense Non Operating"]),
  ("net_non_operating_interest_income_expense", ["Net Non Operating Interest Income Expense"]),
  ("other_non_operating_income_expenses", ["Other Non Operating Income Expenses"]),
  ("special_income_charges", ["Special Income Charges"]),
  ("other_special_charges", ["Other Special Charges"]),
  ("total_unusual_items", ["Total Unusual Items"]),
  ("total_unusual_items_excluding_goodwill", ["Total Unusual Items Excluding Goodwill"]),
  ("tax_effect_of_unusual_items", ["Tax Effect Of Unusual Items"]),
  ("tax_rate_for_calcs", ["Tax Rate For Calcs"]),
  ("basic_average_shares", ["Basic Average Shares"]),
  ("diluted_average_shares", ["Diluted Average Shares"]),
  ("basic_eps", ["Basic EPS"]),
  ("diluted_eps", ["Diluted EPS"]),
  ("diluted_ni_availto_com_stockholders", ["Diluted NI Availto Com Stockholders"]),
  ("minority_interests", ["Minority Interests"]),
  ("net_income_including_noncontrolling_interests", ["Net Income Including Noncontrolling Interests"]),
  ("otherunder_preferred_stock_dividend", ["Otherunder Preferred Stock Dividend"]),
  ("reconciled_depreciation", ["Reconciled Depreciation"]),
  ("reconciled_cost_of_revenue", ["Reconciled Cost Of Revenue"])]

/-- One period column of the financials DataFrame, as the association of a
line-item name (`data.index`) to its cell for the chosen `column_date`. -/
def finLookup : List (String × Cell) → String → Option Cell
  | [], _ => none
  | (k, c) :: rest, k' => if k = k' then some c else finLookup rest k'

/-- The inner candidate loop of `_update_financials_fields`: the first
candidate source field that is present in the index and whose value is
non-null, non-NaN and `float()`-coercible wins (`break`); every failure mode
(`not in index`, null/NaN value, coercion error) falls through to the next
candidate. -/
def firstCoercible (snap : List (String × Cell)) : List String → Option ℚ
  | [] => none
  | k :: ks =>
    match finLookup snap k with
    | none => firstCoercible snap ks
    | some c =>
      match coerceCell c with
      | some q => some q
      | none => firstCoercible snap ks

/-- `setattr(record, db_field, float(value))` on the numeric fields of a
`Financials` record, the record's numeric columns being modelled as a total
map from column name to optional value. -/
def setFinField (f : String) (q : ℚ) (flds : String → Option ℚ) : String → Option ℚ :=
  fun g => if g = f then some q else flds g

/-- The outer `for db_field, json_keys in field_mappings.items()` loop. -/
def applyFinMappings (snap : List (String × Cell)) :
    List (String × List String) → (String → Option ℚ) → (String → Option ℚ)
  | [], flds => flds
  | (df, ks) :: rest, flds =>
    applyFinMappings snap rest
      (match firstCoercible snap ks with
       | some q => setFinField df q flds
       | none => flds)

/-- `_update_financials_fields` restricted to the numeric columns. -/
def updateFinancialsFields (flds : String → Option ℚ) (snap : List (String × Cell)) :
    String → Option ℚ :=
  applyFinMappings snap finFieldMappings flds

/-- The numeric columns of `_create_financials_record`: a fresh record with
every numeric column `NULL`, patched by `_update_financials_fields`. -/
def createFinancialsFields (snap : List (String × Cell)) : String → Option ℚ :=
  updateFinancialsFields (fun _ => none) snap

/-! ## Holder tables (`stock_institutional_holders.py`, `stock_mutualfund_holders.py`) -/

/-- A `Date Reported` value of timestamp kind: `strftime('%Y-%m-%d')` yields
`ymd`, `.isoformat()` yields `ymd ++ "T" ++ timePart`. -/
structure DateRep where
  ymd : String
  timePart : String
deriving DecidableEq

/-- `date_reported.isoformat()`. -/
def DateRep.isoStr (d : DateRep) : String := d.ymd ++ "T" ++ d.timePart

/-- One entry of the `holders_dict` built from the holders DataFrame:
`none` for `Holder` / `Date Reported` models a missing key. -/
structure HolderItem where
  holder : Option String
  dateReported : Option DateRep
  pctHeld : Cell
  shares : Cell
  value : Cell
  pctChange : Cell
deriving DecidableEq

/-- A persisted holders table row (`InstitutionalHolders` / `MutualfundHolders`
share the same columns). -/
structure HolderRow where
  symbol : String
  date : String
  holder : String
  pct_held : Option ℚ
  shares : Option ℚ
  value : Option ℚ
  pct_change : Option ℚ
  created_at : String
  updated_at : String
deriving DecidableEq

/-- `_update_institutional_holders_fields`: four independent guarded
`setattr(record, field, float(value))` assignments. -/
def updInstHolderFields (r : HolderRow) (it : HolderItem) : HolderRow :=
  let r1 := match coerceCell it.pctHeld with
    | some q => { r with pct_held := some q }
    | none => r
  let r2 := match coerceCell it.shares with
    | some q => { r1 with shares := some q }
    | none => r1
  let r3 := match coerceCell it.value with
    | some q => { r2 with value := some q }
    | none => r2
  match coerceCell it.pctChange with
  | some q => { r3 with pct_change := some q }
  | none => r3

/-- The composite dict key `f"{record.date}_{record.holder}"`. -/
def instKeyStr (d h : String) : String := d ++ "_" ++ h

/-- Keys of the institutional `existing_records` dict. -/
def instHolderKeys (sym : String) : List HolderRow → List String
  | [] => []
  | r :: rs =>
    if r.symbol = sym then instKeyStr r.date r.holder :: instHolderKeys sym rs
    else instHolderKeys sym rs

/-- Patch the first institutional row whose dict key matches. -/
def updateFirstInstHolder (sym key now : String) (it : HolderItem) :
    List HolderRow → List HolderRow
  | [] => []
  | r :: rs =>
    if r.symbol = sym ∧ instKeyStr r.date r.holder = key then
      { updInstHolderFields r it with updated_at := now } :: rs
    else r :: updateFirstInstHolder sym key now it rs

/-- Patch the last matching institutional row — the one the dict retains. -/
def updateLastInstHolder (sym key now : String) (it : HolderItem)
    (db : List HolderRow) : List HolderRow :=
  (updateFirstInstHolder sym key now it db.reverse).reverse

/-- `_create_institutional_holders_record`: `None` when the (stripped) holder
name or the date string is falsy, else a fresh record patched by the field
updater. -/
def mkInstHolderRow (now sym dateStr hn : String) (it : HolderItem) : Option HolderRow :=
  if hn = "" ∨ dateStr = "" then none
  else some (updInstHolderFields
    { symbol := sym, date := dateStr, holder := hn,
      pct_held := none, shares := none, value := none, pct_change := none,
      created_at := now, updated_at := now } it)

/-- The row loop of `_bulk_process_institutional_holders_data`: skip rows
without holder or date, normalise the date to `%Y-%m-%d`, strip the holder
name, then upsert against the in-memory key index built once. -/
def instHoldersLoop (now sym : String) (keys : List String) :
    List HolderRow → List HolderRow → Nat → List HolderItem →
    List HolderRow × List HolderRow × Nat
  | db, news, upd, [] => (db, news, upd)
  | db, news, upd, it :: rest =>
    match it.holder, it.dateReported with
    | some h, some d =>
      if h = "" then instHoldersLoop now sym keys db news upd rest
      else
        let dateStr := d.ymd
        let hn := pyStrip h
        let key := instKeyStr dateStr hn
        if key ∈ keys then
          instHoldersLoop now sym keys (updateLastInstHolder sym key now it db) news (upd + 1) rest
        else
          match mkInstHolderRow now sym dateStr hn it with
          | some row => instHoldersLoop now sym keys db (news ++ [row]) upd rest
          | none => instHoldersLoop now sym keys db news upd rest
    | _, _ => instHoldersLoop now sym keys db news upd rest

/-- `_bulk_process_institutional_holders_data`: final table and returned count
`len(new_records) + updated_count`. -/
def bulkProcessInstitutionalHolders (now sym : String) (db : List HolderRow)
    (data : List HolderItem) : List HolderRow × Nat :=
  let p := instHoldersLoop now sym (instHolderKeys sym db) db [] 0 data
  (p.1 ++ p.2.1, p.2.1.length + p.2.2)

/-- The mutual-fund field-mapping table. -/
def mfFieldMappings : List (String × List String) :=
  [("pct_held", ["pctHeld"]), ("shares", ["Shares"]),
   ("value", ["Value"]), ("pct_change", ["pctChange"])]

/-- `holder_data.get(json_key, None)` for the numeric keys. -/
def holderItemGet (it : HolderItem) (k : String) : Cell :=
  if k = "pctHeld" then it.pctHeld
  else if k = "Shares" then it.shares
  else if k = "Value" then it.value
  else if k = "pctChange" then it.pctChange
  else .absent

/-- The inner candidate loop of `_update_mutualfund_holders_fields`. -/
def firstCoercibleMf (it : HolderItem) : List String → Option ℚ
  | [] => none
  | k :: ks =>
    match coerceCell (holderItemGet it k) with
    | some q => some q
    | none => firstCoercibleMf it ks

/-- `setattr(record, db_field, float(value))` on a holders record. -/
def setHolderField (r : HolderRow) (f : String) (q : ℚ) : HolderRow :=
  if f = "pct_held" then { r with pct_held := some q }
  else if f = "shares" then { r with shares := some q }
  else if f = "value" then { r with value := some q }
  else if f = "pct_change" then { r with pct_change := some q }
  else r

/-- `_update_mutualfund_holders_fields`. -/
def updMfHolderFields (r : HolderRow) (it : HolderItem) : HolderRow :=
  mfFieldMappings.foldl
    (fun acc p =>
      match firstCoercibleMf it p.2 with
      | some q => setHolderField acc p.1 q
      | none => acc) r

/-- `_create_mutualfund_holders_record`. -/
def mkMfHolderRow (now sym dateStr : String) (it : HolderItem) : Option HolderRow :=
  match it.holder with
  | none => none
  | some h =>
    if h = "" then none
    else some (updMfHolderFields
      { symbol := sym, date := dateStr, holder := h,
        pct_held := none, shares := none, value := none, pct_change := none,
        created_at := now, updated_at := now } it)

/-- Patch the first mutual-fund row matching the composite key — the
`.first()` result of the per-row query. -/
def updateFirstMfHolder (sym dateStr h now : String) (it : HolderItem) :
    List HolderRow → List HolderRow
  | [] => []
  | r :: rs =>
    if r.symbol = sym ∧ r.date = dateStr ∧ r.holder = h then
      { updMfHolderFields r it with updated_at := now } :: rs
    else r :: updateFirstMfHolder sym dateStr h now it rs

/-- The row loop of `_bulk_process_mutualfund_holders_data`: the date is
`holder_data['Date Reported'].isoformat()[:24]` (a missing key raises, which
the model returns as `Except.error`), the duplicate check re-queries the
persisted rows for each item (the session has `autoflush=False`, so rows
added by `session.add` but not yet flushed are invisible to the query and are
kept in a separate `pending` list until commit). -/
def mfHoldersLoop (now sym : String) :
    List HolderRow → List HolderRow → Nat → List HolderItem →
    Except Unit (List HolderRow × List HolderRow × Nat)
  | per, pend, cnt, [] => .ok (per, pend, cnt)
  | per, pend, cnt, it :: rest =>
    match it.dateReported with
    | none => .error ()
    | some d =>
      let dateStr := pySlice d.isoStr 24
      match it.holder with
      | none => mfHoldersLoop now sym per pend cnt rest
      | some h =>
        if dateStr = "" ∨ h = "" then mfHoldersLoop now sym per pend cnt rest
        else if ∃ r ∈ per, r.symbol = sym ∧ r.date = dateStr ∧ r.holder = h then
          mfHoldersLoop now sym (updateFirstMfHolder sym dateStr h now it per) pend (cnt + 1) rest
        else
          match mkMfHolderRow now sym dateStr it with
          | some row => mfHoldersLoop now sym per (pend ++ [row]) (cnt + 1) rest
          | none => mfHoldersLoop now sym per pend cnt rest

/-- `_bulk_process_mutualfund_holders_data`: the final table after the commit
flushes the pending adds, and the returned `processed_count`. -/
def bulkProcessMutualfundHolders (now sym : String) (db : List HolderRow)
    (data : List HolderItem) : Except Unit (List HolderRow × Nat) :=
  match mfHoldersLoop now sym db [] 0 data with
  | .error e => .error e
  | .ok (per, pend, cnt) => .ok (per ++ pend, cnt)

/-! ## Per-domain wrapper and unit of work
(`insert_stock_actions` + `DatabaseClient.session_scope`) -/

/-- Result of `ticker.actions`: either the fetch raises, or it returns a
(possibly empty) snapshot. -/
inductive FetchA where
  | fail
  | ok (data : List AItem)
deriving DecidableEq

/-- The observable outcome of one `insert_stock_actions` call: the durable
table after the call, the returned count, the number of `session.commit()`
invocations, the number of `session.rollback()` invocations, and the logged
error message (if any). The model is a total function: the source swallows
every exception behind `except Exception`, so no outcome propagates one. -/
structure CallResult where
  db : List ARow
  ret : Nat
  commits : Nat
  rollbacks : Nat
  err : Option String
deriving DecidableEq

/-- The error line `f"Error inserting actions data for {symbol}: {e}"`. -/
def actionsErrMsg (sym : String) : String :=
  "Error inserting actions data for " ++ sym ++ ": exception"

/-- `insert_stock_actions` composed with `DatabaseClient.session_scope`.
`procRaises = true` models an exception raised inside the transaction while
processing (e.g. a storage failure): `session_scope` rolls the transaction
back — the durable table stays `db` — re-raises, and the wrapper's
`except Exception` swallows it. On the success path the body calls
`session.commit()` explicitly and then `session_scope` commits again when the
`with` block exits, so two commit invocations occur. -/
def insertStockActions (now sym : String) (db : List ARow) (fetch : FetchA)
    (procRaises : Bool) : CallResult :=
  match fetch with
  | .fail => { db := db, ret := 0, commits := 0, rollbacks := 0, err := some (actionsErrMsg sym) }
  | .ok data =>
    if data = [] then
      { db := db, ret := 0, commits := 0, rollbacks := 0, err := none }
    else if procRaises then
      { db := db, ret := 0, commits := 0, rollbacks := 1, err := some (actionsErrMsg sym) }
    else
      let p := processActions now sym db data
      { db := p.1, ret := p.2.1 + p.2.2, commits := 2, rollbacks := 0, err := none }

/-! ## `safe_timestamp_to_str` (`src/insert_yf/utils.py`) -/

/-- A timestamp argument: `valid iso` is a value whose
`datetime.fromtimestamp(..).isoformat()` succeeds and yields `iso`;
`invalid` is one whose conversion raises `ValueError` or `TypeError`. -/
inductive TsVal where
  | valid (iso : String)
  | invalid
deriving DecidableEq

/-- `safe_timestamp_to_str`. -/
def safeTimestampToStr : Option TsVal → Option String
  | none => none
  | some .invalid => none
  | some (.valid iso) => some (pySlice iso 24)

/-! ## Daily driver loop (`src/commands/daily.py`) -/

/-- The accumulated error string for one security. -/
def dailyErrMsg (sym e : String) : String :=
  "Error inserting stock history for " ++ sym ++ ": " ++ e

/-- The module-level `for symbol in symbols` loop of `daily.py`: `body`
abstracts the three wrapper calls of one iteration (its `Except.error e`
models an exception reaching the driver's `try`). Returns the securities
actually attempted (in order) and the accumulated `errors` list printed at
the end. -/
def dailyLoop (body : String → Except String Unit) : List String → List String × List String
  | [] => ([], [])
  | sym :: rest =>
    match body sym with
    | .ok _ =>
      let p := dailyLoop body rest
      (sym :: p.1, p.2)
    | .error e =>
      let p := dailyLoop body rest
      (sym :: p.1, dailyErrMsg sym e :: p.2)

/-! ## Characterisation combinators

Spec-side functions used to state what the reconcilers compute: the first
incoming item targeting a given date, the fresh (to-insert) part of a
snapshot, and per-key projections. -/

/-- The composite natural key of an actions row. -/
def keyA (r : ARow) : String × String := (r.symbol, r.date)

/-- The composite natural key of a history row. -/
def keyH (r : HRow) : String × String := (r.symbol, r.date)

/-- Erase the `updated_at` stamp of an actions row (for comparing persisted
field values across runs). -/
def stripUA (r : ARow) : ARow := { r with updated_at := "" }

/-- Erase the `updated_at` stamp of a history row. -/
def stripUH (r : HRow) : HRow := { r with updated_at := "" }

/-- The first non-skippable incoming actions item for date `d`. -/
def findItemA (d : String) : List AItem → Option AItem
  | [] => none
  | it :: rest =>
    if ¬(it.div = 0 ∧ it.sp = 0) ∧ it.dateStr = d then some it
    else findItemA d rest

/-- How one `_bulk_process_actions_data` run transforms an already-persisted
row: patched by the unique non-skippable incoming item of its date, if any. -/
def aPatch (now sym : String) (data : List AItem) (r : ARow) : ARow :=
  if r.symbol = sym then
    match findItemA r.date data with
    | some it => patchARow it.div it.sp now r
    | none => r
  else r

/-- The non-skippable incoming actions items whose date is not yet persisted. -/
def freshA (keys : List String) : List AItem → List AItem
  | [] => []
  | it :: rest =>
    if ¬(it.div = 0 ∧ it.sp = 0) ∧ it.dateStr ∉ keys then it :: freshA keys rest
    else freshA keys rest

/-- The number of non-skippable incoming actions items whose date is already
persisted. -/
def updCountA (keys : List String) : List AItem → Nat
  | [] => 0
  | it :: rest =>
    if ¬(it.div = 0 ∧ it.sp = 0) ∧ it.dateStr ∈ keys then updCountA keys rest + 1
    else updCountA keys rest

/-- The non-skippable items of an actions snapshot. -/
def nonskipA : List AItem → List AItem
  | [] => []
  | it :: rest =>
    if it.div = 0 ∧ it.sp = 0 then nonskipA rest else it :: nonskipA rest

/-- A sequence of `_bulk_process_actions_data` invocations against the same
stored state, each with its own timestamp and snapshot. -/
def processActionsMany (sym : String) (db : List ARow) :
    List (String × List AItem) → List ARow
  | [] => db
  | run :: rest => processActionsMany sym (processActions run.1 sym db run.2).1 rest

/-- The first incoming history item for date `d`. -/
def findItemH (d : String) : List HItem → Option HItem
  | [] => none
  | it :: rest => if it.dateStr = d then some it else findItemH d rest

/-- How one `_process_stock_history_data` run transforms an already-persisted
row: every field overwritten from the incoming item of its date, if any. -/
def hPatch (now sym : String) (data : List HItem) (r : HRow) : HRow :=
  if r.symbol = sym then
    match findItemH r.date data with
    | some it =>
      { r with opn := coerceCell it.opn, high := coerceCell it.high,
               low := coerceCell it.low, close := coerceCell it.close,
               volume := coerceCell it.volume, updated_at := now }
    | none => r
  else r

/-- The incoming history items whose date is not yet persisted. -/
def freshH (dates : List String) : List HItem → List HItem
  | [] => []
  | it :: rest =>
    if it.dateStr ∈ dates then freshH dates rest else it :: freshH dates rest

/-- The incoming history items whose date is already persisted. -/
def hitsH (dates : List String) : List HItem → List HItem
  | [] => []
  | it :: rest =>
    if it.dateStr ∈ dates then it :: hitsH dates rest else hitsH dates rest

/-- A sequence of `_process_stock_history_data` invocations. -/
def processHistoryMany (sym : String) (db : List HRow) :
    List (String × List HItem) → List HRow
  | [] => db
  | run :: rest => processHistoryMany sym (processHistory run.1 sym db run.2).1 rest

/-! ## Lemmas: the actions reconciler -/

theorem keyA_patchARow (dv sp : ℚ) (now : String) (r : ARow) :
    keyA (patchARow dv sp now r) = keyA r := rfl

theorem keyA_aPatch (now sym : String) (data : List AItem) (r : ARow) :
    keyA (aPatch now sym data r) = keyA r := by
  unfold aPatch
  split
  · split <;> rfl
  · rfl

theorem aPatch_nil (now sym : String) (r : ARow) : aPatch now sym [] r = r := by
  unfold aPatch
  split <;> rfl

theorem mem_actionsKeys {sym d : String} {db : List ARow} :
    d ∈ actionsKeys sym db ↔ (sym, d) ∈ db.map keyA := by
  induction db with
  | nil => simp [actionsKeys]
  | cons r rs ih =>
    by_cases h : r.symbol = sym
    · simp only [actionsKeys, if_pos h, List.mem_cons, ih, List.map_cons, keyA, Prod.ext_iff]
      constructor
      · rintro (rfl | hmem)
        · exact Or.inl ⟨h.symm, rfl⟩
        · exact Or.inr hmem
      · rintro (⟨-, rfl⟩ | hmem)
        · exact Or.inl rfl
        · exact Or.inr hmem
    · simp only [actionsKeys, if_neg h, ih, List.map_cons, List.mem_cons, keyA, Prod.ext_iff]
      constructor
      · exact Or.inr
      · rintro (⟨hsym, -⟩ | hmem)
        · exact absurd hsym.symm h
        · exact hmem

theorem findItemA_cons_skip {it : AItem} (hs : it.div = 0 ∧ it.sp = 0)
    (d : String) (rest : List AItem) :
    findItemA d (it :: rest) = findItemA d rest := by
  simp [findItemA, hs.1, hs.2]

theorem findItemA_cons_ne {it : AItem} {d : String} (h : ¬ it.dateStr = d)
    (rest : List AItem) :
    findItemA d (it :: rest) = findItemA d rest := by
  simp [findItemA, h]

theorem findItemA_eq_none {d : String} {data : List AItem}
    (h : d ∉ data.map AItem.dateStr) : findItemA d data = none := by
  induction data with
  | nil => rfl
  | cons it rest ih =>
    simp only [List.map_cons, List.mem_cons] at h
    push_neg at h
    rw [findItemA_cons_ne (fun he => h.1 he.symm) rest]
    exact ih h.2

theorem findItemA_cons_self {it : AItem} (hs : ¬(it.div = 0 ∧ it.sp = 0))
    (rest : List AItem) : findItemA it.dateStr (it :: rest) = some it := by
  unfold findItemA
  rw [if_pos ⟨hs, rfl⟩]

/-- Rewriting helper: evaluate `aPatch` when the lookup finds an item. -/
theorem aPatch_eq_some {now sym : String} {data : List AItem} {r : ARow}
    (hsym : r.symbol = sym) {it : AItem} (h : findItemA r.date data = some it) :
    aPatch now sym data r = patchARow it.div it.sp now r := by
  unfold aPatch
  rw [if_pos hsym, h]

/-- Rewriting helper: evaluate `aPatch` when the lookup finds nothing. -/
theorem aPatch_eq_none {now sym : String} {data : List AItem} {r : ARow}
    (hsym : r.symbol = sym) (h : findItemA r.date data = none) :
    aPatch now sym data r = r := by
  unfold aPatch
  rw [if_pos hsym, h]

theorem aPatch_of_not_sym {now sym : String} {data : List AItem} {r : ARow}
    (hsym : ¬ r.symbol = sym) : aPatch now sym data r = r := by
  unfold aPatch
  rw [if_neg hsym]

theorem aPatch_cons_skip {now sym : String} {it : AItem} {rest : List AItem}
    (hs : it.div = 0 ∧ it.sp = 0) (r : ARow) :
    aPatch now sym (it :: rest) r = aPatch now sym rest r := by
  unfold aPatch
  rw [findItemA_cons_skip hs]

theorem aPatch_cons_ne {now sym : String} {it : AItem} {rest : List AItem}
    {r : ARow} (hne : ¬ it.dateStr = r.date) :
    aPatch now sym (it :: rest) r = aPatch now sym rest r := by
  unfold aPatch
  rw [findItemA_cons_ne hne]

theorem aPatch_cons_update {now sym : String} {it : AItem} {rest : List AItem}
    (hs : ¬(it.div = 0 ∧ it.sp = 0)) (h1 : it.dateStr ∉ rest.map AItem.dateStr)
    (r : ARow) :
    aPatch now sym (it :: rest) r =
      aPatch now sym rest
        (if r.symbol = sym ∧ r.date = it.dateStr then patchARow it.div it.sp now r else r) := by
  by_cases hsym : r.symbol = sym
  · by_cases hdate : r.date = it.dateStr
    · have hfind : findItemA r.date (it :: rest) = some it := by
        unfold findItemA
        rw [if_pos ⟨hs, hdate.symm⟩]
      have hfind2 : findItemA r.date rest = none :=
        findItemA_eq_none (by rw [hdate]; exact h1)
      rw [if_pos ⟨hsym, hdate⟩, aPatch_eq_some hsym hfind,
        aPatch_eq_none (show (patchARow it.div it.sp now r).symbol = sym from hsym)
          (show findItemA (patchARow it.div it.sp now r).date rest = none from hfind2)]
    · rw [if_neg (fun hc => hdate hc.2), aPatch_cons_ne (fun he => hdate he.symm)]
  · rw [if_neg (fun hc => hsym hc.1), aPatch_of_not_sym hsym, aPatch_of_not_sym hsym]

theorem updateFirstA_eq_map {sym d : String} {dv sp : ℚ} {now : String}
    {db : List ARow} (hdb : (db.map keyA).Nodup) :
    updateFirstA sym d dv sp now db =
      db.map (fun r => if r.symbol = sym ∧ r.date = d then patchARow dv sp now r else r) := by
  induction db with
  | nil => rfl
  | cons r rs ih =>
    simp only [List.map_cons, List.nodup_cons] at hdb
    by_cases h : r.symbol = sym ∧ r.date = d
    · rw [updateFirstA, if_pos h, List.map_cons, if_pos h]
      congr 1
      have hno : ∀ r' ∈ rs, ¬(r'.symbol = sym ∧ r'.date = d) := by
        intro r' hr' hmatch
        exact hdb.1 (by
          have hk : keyA r' = keyA r := by
            simp [keyA, h.1, h.2, hmatch.1, hmatch.2]
          exact hk ▸ List.mem_map_of_mem keyA hr')
      refine ((List.map_congr_left ?_).trans (List.map_id rs)).symm
      intro r' hr'
      simp [hno r' hr']
    · rw [updateFirstA, if_neg h, List.map_cons, if_neg h]
      exact congrArg _ (ih hdb.2)

theorem updateLastA_eq_map {sym d : String} {dv sp : ℚ} {now : String}
    {db : List ARow} (hdb : (db.map keyA).Nodup) :
    updateLastA sym d dv sp now db =
      db.map (fun r => if r.symbol = sym ∧ r.date = d then patchARow dv sp now r else r) := by
  unfold updateLastA
  rw [updateFirstA_eq_map (by rw [List.map_reverse]; exact List.nodup_reverse.mpr hdb)]
  rw [List.map_reverse, List.reverse_reverse]

theorem actionsLoop_eq (now sym : String) (keys : List String) :
    ∀ (data : List AItem) (db news : List ARow) (upd : Nat),
    (db.map keyA).Nodup →
    (data.map AItem.dateStr).Nodup →
    (∀ d, d ∈ keys ↔ (sym, d) ∈ db.map keyA) →
    actionsLoop now sym keys db news upd data =
      (db.map (aPatch now sym data),
       news ++ (freshA keys data).map (mkARow now sym),
       upd + updCountA keys data)
  | [], db, news, upd, hdb, hdata, hkeys => by
    have hmap : db.map (aPatch now sym []) = db :=
      (List.map_congr_left fun r _ => aPatch_nil now sym r).trans (List.map_id db)
    simp [actionsLoop, freshA, updCountA, hmap]
  | it :: rest, db, news, upd, hdb, hdata, hkeys => by
    simp only [List.map_cons, List.nodup_cons] at hdata
    by_cases hs : it.div = 0 ∧ it.sp = 0
    · have hmap : db.map (aPatch now sym (it :: rest)) = db.map (aPatch now sym rest) :=
        List.map_congr_left fun r _ => aPatch_cons_skip hs r
      rw [show actionsLoop now sym keys db news upd (it :: rest) =
            actionsLoop now sym keys db news upd rest from by
          rw [actionsLoop, if_pos hs],
        actionsLoop_eq now sym keys rest db news upd hdb hdata.2 hkeys, hmap,
        show freshA keys (it :: rest) = freshA keys rest from by simp [freshA, hs.1, hs.2],
        show updCountA keys (it :: rest) = updCountA keys rest from by
          simp [updCountA, hs.1, hs.2]]
    · by_cases hm : it.dateStr ∈ keys
      · have hcomp : (keyA ∘ fun r : ARow =>
            if r.symbol = sym ∧ r.date = it.dateStr then patchARow it.div it.sp now r else r)
            = keyA := by
          funext r
          simp only [Function.comp_apply]
          split <;> rfl
        have hdb2 : (((db.map fun r : ARow =>
            if r.symbol = sym ∧ r.date = it.dateStr then patchARow it.div it.sp now r else r).map
              keyA)).Nodup := by
          rw [List.map_map, hcomp]; exact hdb
        have hkeys2 : ∀ d, d ∈ keys ↔ (sym, d) ∈ (db.map fun r : ARow =>
            if r.symbol = sym ∧ r.date = it.dateStr then patchARow it.div it.sp now r else r).map
              keyA := by
          intro d
          rw [List.map_map, hcomp]; exact hkeys d
        have hmap : db.map (aPatch now sym (it :: rest)) =
            (db.map fun r : ARow =>
              if r.symbol = sym ∧ r.date = it.dateStr then patchARow it.div it.sp now r
              else r).map (aPatch now sym rest) := by
          rw [List.map_map]
          exact List.map_congr_left fun r _ => aPatch_cons_update hs hdata.1 r
        rw [show actionsLoop now sym keys db news upd (it :: rest) =
              actionsLoop now sym keys
                (updateLastA sym it.dateStr it.div it.sp now db) news (upd + 1) rest from by
            rw [actionsLoop, if_neg hs, if_pos hm],
          updateLastA_eq_map hdb,
          actionsLoop_eq now sym keys rest _ news (upd + 1) hdb2 hdata.2 hkeys2, hmap,
          show freshA keys (it :: rest) = freshA keys rest from by simp [freshA, hm],
          show updCountA keys (it :: rest) = updCountA keys rest + 1 from by
            simp [updCountA, hs, hm]]
        refine Prod.ext rfl (Prod.ext rfl ?_)
        dsimp only
        omega
      · have hmap : db.map (aPatch now sym (it :: rest)) = db.map (aPatch now sym rest) :=
          List.map_congr_left fun r hr => by
            by_cases hsym : r.symbol = sym
            · refine aPatch_cons_ne ?_
              intro he
              refine hm ((hkeys it.dateStr).mpr ?_)
              rw [he]
              have hk : keyA r = (sym, r.date) := by simp [keyA, hsym]
              exact hk ▸ List.mem_map_of_mem keyA hr
            · rw [aPatch_of_not_sym hsym, aPatch_of_not_sym hsym]
        rw [show actionsLoop now sym keys db news upd (it :: rest) =
              actionsLoop now sym keys db (news ++ [mkARow now sym it]) upd rest from by
            rw [actionsLoop, if_neg hs, if_neg hm],
          actionsLoop_eq now sym keys rest db (news ++ [mkARow now sym it]) upd hdb hdata.2 hkeys,
          hmap,
          show freshA keys (it :: rest) = it :: freshA keys rest from by simp [freshA, hs, hm],
          show updCountA keys (it :: rest) = updCountA keys rest from by simp [updCountA, hm]]
        simp [List.append_assoc]

theorem processActions_eq {now sym : String} {db : List ARow} {data : List AItem}
    (hdb : (db.map keyA).Nodup) (hdata : (data.map AItem.dateStr).Nodup) :
    processActions now sym db data =
      (db.map (aPatch now sym data) ++
         (freshA (actionsKeys sym db) data).map (mkARow now sym),
       (freshA (actionsKeys sym db) data).length,
       updCountA (actionsKeys sym db) data) := by
  unfold processActions
  rw [actionsLoop_eq now sym (actionsKeys sym db) data db [] 0 hdb hdata
    (fun d => mem_actionsKeys)]
  simp

theorem mem_freshA {keys : List String} {data : List AItem} {it : AItem}
    (h : it ∈ freshA keys data) :
    it ∈ data ∧ ¬(it.div = 0 ∧ it.sp = 0) ∧ it.dateStr ∉ keys := by
  induction data with
  | nil => cases h
  | cons it0 rest ih =>
    by_cases hc : ¬(it0.div = 0 ∧ it0.sp = 0) ∧ it0.dateStr ∉ keys
    · rw [freshA, if_pos hc] at h
      rcases List.mem_cons.mp h with rfl | hmem
      · exact ⟨List.mem_cons_self it rest, hc⟩
      · obtain ⟨h1, h2⟩ := ih hmem
        exact ⟨List.mem_cons_of_mem it0 h1, h2⟩
    · rw [freshA, if_neg hc] at h
      obtain ⟨h1, h2⟩ := ih h
      exact ⟨List.mem_cons_of_mem it0 h1, h2⟩

theorem mem_freshA_of {keys : List String} {data : List AItem} {it : AItem}
    (h : it ∈ data) (hs : ¬(it.div = 0 ∧ it.sp = 0)) (hk : it.dateStr ∉ keys) :
    it ∈ freshA keys data := by
  induction data with
  | nil => cases h
  | cons it0 rest ih =>
    rcases List.mem_cons.mp h with rfl | hmem
    · rw [freshA, if_pos ⟨hs, hk⟩]
      exact List.mem_cons_self it (freshA keys rest)
    · by_cases hc : ¬(it0.div = 0 ∧ it0.sp = 0) ∧ it0.dateStr ∉ keys
      · rw [freshA, if_pos hc]
        exact List.mem_cons_of_mem it0 (ih hmem)
      · rw [freshA, if_neg hc]
        exact ih hmem

theorem freshA_dateStr_sublist (keys : List String) (data : List AItem) :
    ((freshA keys data).map AItem.dateStr).Sublist (data.map AItem.dateStr) := by
  induction data with
  | nil => simp [freshA]
  | cons it rest ih =>
    by_cases hc : ¬(it.div = 0 ∧ it.sp = 0) ∧ it.dateStr ∉ keys
    · rw [freshA, if_pos hc, List.map_cons, List.map_cons]
      exact ih.cons₂ it.dateStr
    · rw [freshA, if_neg hc, List.map_cons]
      exact ih.cons it.dateStr

theorem processActions_fst_map_keyA {now sym : String} {db : List ARow}
    {data : List AItem} (hdb : (db.map keyA).Nodup)
    (hdata : (data.map AItem.dateStr).Nodup) :
    (processActions now sym db data).1.map keyA =
      db.map keyA ++
        ((freshA (actionsKeys sym db) data).map AItem.dateStr).map (fun d => (sym, d)) := by
  rw [processActions_eq hdb hdata]
  dsimp only
  rw [List.map_append, List.map_map, List.map_map,
    List.map_congr_left (fun r (_ : r ∈ db) =>
      show (keyA ∘ aPatch now sym data) r = keyA r from keyA_aPatch now sym data r)]
  congr 1
  rw [List.map_map]
  exact List.map_congr_left fun it _ => rfl

theorem processActions_nodup {now sym : String} {db : List ARow} {data : List AItem}
    (hdb : (db.map keyA).Nodup) (hdata : (data.map AItem.dateStr).Nodup) :
    ((processActions now sym db data).1.map keyA).Nodup := by
  rw [processActions_fst_map_keyA hdb hdata]
  refine hdb.append ?_ ?_
  · refine List.Nodup.map ?_ ((hdata.sublist (freshA_dateStr_sublist _ _)))
    intro a b hab
    simpa using hab
  · intro k hk hk2
    obtain ⟨d, hd, rfl⟩ := List.mem_map.mp hk2
    obtain ⟨it, hit, hdit⟩ := List.mem_map.mp hd
    exact (mem_freshA hit).2.2 (hdit ▸ mem_actionsKeys.mpr hk)

theorem processActionsMany_nodup {sym : String} :
    ∀ (runs : List (String × List AItem)) (db : List ARow),
    (db.map keyA).Nodup →
    (∀ run ∈ runs, (run.2.map AItem.dateStr).Nodup) →
    ((processActionsMany sym db runs).map keyA).Nodup
  | [], db, hdb, _ => hdb
  | run :: rest, db, hdb, hruns => by
    rw [processActionsMany]
    exact processActionsMany_nodup rest _
      (processActions_nodup hdb (hruns run (List.mem_cons_self run rest)))
      (fun r hr => hruns r (List.mem_cons_of_mem run hr))

theorem nonskipA_length_eq_updCountA {keys : List String} {data : List AItem}
    (h : ∀ it ∈ data, ¬(it.div = 0 ∧ it.sp = 0) → it.dateStr ∈ keys) :
    updCountA keys data = (nonskipA data).length := by
  induction data with
  | nil => rfl
  | cons it rest ih =>
    have hrest := ih fun it2 h2 => h it2 (List.mem_cons_of_mem it h2)
    by_cases hs : it.div = 0 ∧ it.sp = 0
    · rw [show updCountA keys (it :: rest) = updCountA keys rest from by
        simp [updCountA, hs.1, hs.2], hrest,
        show nonskipA (it :: rest) = nonskipA rest from by simp [nonskipA, hs.1, hs.2]]
    · rw [show updCountA keys (it :: rest) = updCountA keys rest + 1 from by
        simp [updCountA, hs, h it (List.mem_cons_self it rest) hs],
        show nonskipA (it :: rest) = it :: nonskipA rest from by simp [nonskipA, hs],
        hrest, List.length_cons]

theorem findItemA_self {data : List AItem} (hdata : (data.map AItem.dateStr).Nodup)
    {it : AItem} (hmem : it ∈ data) (hs : ¬(it.div = 0 ∧ it.sp = 0)) :
    findItemA it.dateStr data = some it := by
  induction data with
  | nil => cases hmem
  | cons it0 rest ih =>
    simp only [List.map_cons, List.nodup_cons] at hdata
    rcases List.mem_cons.mp hmem with rfl | hmem2
    · exact findItemA_cons_self hs rest
    · rw [findItemA_cons_ne, ih hdata.2 hmem2]
      intro he
      apply hdata.1
      rw [he]
      exact List.mem_map_of_mem AItem.dateStr hmem2

theorem stripUA_aPatch_twice {now1 now2 sym : String} {data : List AItem} (r0 : ARow) :
    stripUA (aPatch now2 sym data (aPatch now1 sym data r0)) =
      stripUA (aPatch now1 sym data r0) := by
  by_cases hsym : r0.symbol = sym
  · cases hfind : findItemA r0.date data with
    | none =>
      rw [aPatch_eq_none hsym hfind, aPatch_eq_none hsym hfind]
    | some it =>
      rw [aPatch_eq_some hsym hfind,
        aPatch_eq_some
          (show (patchARow it.div it.sp now1 r0).symbol = sym from hsym)
          (show findItemA (patchARow it.div it.sp now1 r0).date data = some it from hfind)]
      rfl
  · rw [aPatch_of_not_sym hsym, aPatch_of_not_sym hsym]

theorem stripUA_aPatch_mkARow {now1 now2 sym : String} {data : List AItem}
    (hdata : (data.map AItem.dateStr).Nodup) {it0 : AItem} (hmem : it0 ∈ data)
    (hs : ¬(it0.div = 0 ∧ it0.sp = 0)) :
    stripUA (aPatch now2 sym data (mkARow now1 sym it0)) =
      stripUA (mkARow now1 sym it0) := by
  rw [aPatch_eq_some
    (show (mkARow now1 sym it0).symbol = sym from rfl)
    (show findItemA (mkARow now1 sym it0).date data = some it0 from
      findItemA_self hdata hmem hs)]
  rfl

theorem freshA_eq_nil {keys : List String} {data : List AItem}
    (h : ∀ it ∈ data, ¬(it.div = 0 ∧ it.sp = 0) → it.dateStr ∈ keys) :
    freshA keys data = [] := by
  induction data with
  | nil => rfl
  | cons it rest ih =>
    have hrest := ih fun it2 h2 => h it2 (List.mem_cons_of_mem it h2)
    rw [freshA, if_neg, hrest]
    rintro ⟨hs, hk⟩
    exact hk (h it (List.mem_cons_self it rest) hs)

theorem processActions_idem {now1 now2 sym : String} {db : List ARow} {data : List AItem}
    (hdb : (db.map keyA).Nodup) (hdata : (data.map AItem.dateStr).Nodup) :
    (processActions now2 sym (processActions now1 sym db data).1 data).2.1 = 0 ∧
    (processActions now2 sym (processActions now1 sym db data).1 data).2.2 =
      (nonskipA data).length ∧
    (processActions now2 sym (processActions now1 sym db data).1 data).1.map stripUA =
      (processActions now1 sym db data).1.map stripUA := by
  have hdb1 : ((processActions now1 sym db data).1.map keyA).Nodup :=
    processActions_nodup hdb hdata
  have hK : ∀ it ∈ data, ¬(it.div = 0 ∧ it.sp = 0) →
      it.dateStr ∈ actionsKeys sym (processActions now1 sym db data).1 := by
    intro it hmem hs
    rw [mem_actionsKeys, processActions_fst_map_keyA hdb hdata]
    by_cases hk : it.dateStr ∈ actionsKeys sym db
    · exact List.mem_append_left _ (mem_actionsKeys.mp hk)
    · exact List.mem_append_right _
        (List.mem_map_of_mem _ (List.mem_map_of_mem _ (mem_freshA_of hmem hs hk)))
  have hfr : freshA (actionsKeys sym (processActions now1 sym db data).1) data = [] :=
    freshA_eq_nil hK
  rw [processActions_eq hdb1 hdata]
  refine ⟨by rw [hfr]; rfl, ?_, ?_⟩
  · dsimp only
    exact nonskipA_length_eq_updCountA hK
  · dsimp only
    rw [hfr]
    simp only [List.map_nil, List.append_nil, List.map_map]
    refine List.map_congr_left ?_
    intro r hr
    show stripUA (aPatch now2 sym data r) = stripUA r
    rw [processActions_eq hdb hdata] at hr
    dsimp only at hr
    rcases List.mem_append.mp hr with h1 | h2
    · obtain ⟨r0, hr0, rfl⟩ := List.mem_map.mp h1
      exact stripUA_aPatch_twice r0
    · obtain ⟨it0, hit0, rfl⟩ := List.mem_map.mp h2
      obtain ⟨hmem, hs, -⟩ := mem_freshA hit0
      exact stripUA_aPatch_mkARow hdata hmem hs

/-! ## Lemmas: the history reconciler -/

/-- Overwriting one history row from a `record_data` dict (the field list of
the `update({...})` call). -/
def histOverwrite (rd r : HRow) : HRow :=
  { r with opn := rd.opn, high := rd.high, low := rd.low, close := rd.close,
           volume := rd.volume, updated_at := rd.updated_at }

/-- The first update record targeting row `r`. -/
def findRecH (r : HRow) : List HRow → Option HRow
  | [] => none
  | rd :: rest =>
    if r.symbol = rd.symbol ∧ r.date = rd.date then some rd else findRecH r rest

theorem applyHistUpdate_eq_map (rd : HRow) (db : List HRow) :
    applyHistUpdate rd db =
      db.map (fun r =>
        if r.symbol = rd.symbol ∧ r.date = rd.date then histOverwrite rd r else r) := rfl

theorem findRecH_eq_none {r : HRow} {recs : List HRow}
    (h : r.date ∉ recs.map HRow.date) : findRecH r recs = none := by
  induction recs with
  | nil => rfl
  | cons rd rest ih =>
    simp only [List.map_cons, List.mem_cons] at h
    push_neg at h
    rw [findRecH, if_neg (fun hc => h.1 hc.2)]
    exact ih h.2

theorem findRecH_eq_none_symbol {r : HRow} {recs : List HRow} {sym : String}
    (hall : ∀ rd ∈ recs, rd.symbol = sym) (h : ¬ r.symbol = sym) :
    findRecH r recs = none := by
  induction recs with
  | nil => rfl
  | cons rd rest ih =>
    rw [findRecH,
      if_neg (fun hc => h (hc.1.trans (hall rd (List.mem_cons_self rd rest))))]
    exact ih fun rd2 h2 => hall rd2 (List.mem_cons_of_mem rd h2)

theorem keyH_histOverwrite (rd r : HRow) : keyH (histOverwrite rd r) = keyH r := rfl

theorem foldl_applyHistUpdate_eq {recs : List HRow}
    (hrec : (recs.map HRow.date).Nodup) (db0 : List HRow) :
    recs.foldl (fun acc rd => applyHistUpdate rd acc) db0 =
      db0.map (fun r =>
        match findRecH r recs with
        | some rd => histOverwrite rd r
        | none => r) := by
  induction recs generalizing db0 with
  | nil =>
    symm
    exact (List.map_congr_left fun r _ => rfl).trans (List.map_id db0)
  | cons rd rest ih =>
    simp only [List.map_cons, List.nodup_cons] at hrec
    rw [List.foldl_cons, ih hrec.2, applyHistUpdate_eq_map, List.map_map]
    refine List.map_congr_left ?_
    intro r _
    simp only [Function.comp_apply]
    by_cases hm : r.symbol = rd.symbol ∧ r.date = rd.date
    · rw [if_pos hm]
      have hnone : findRecH (histOverwrite rd r) rest = none := by
        apply findRecH_eq_none
        rw [show (histOverwrite rd r).date = r.date from rfl, hm.2]
        exact hrec.1
      rw [hnone, findRecH, if_pos hm]
    · rw [if_neg hm, findRecH, if_neg hm]

theorem histLoop_eq (now sym : String) (dates : List String) :
    ∀ (data : List HItem) (news upds : List HRow) (cnt : Nat),
    histLoop now sym dates news upds cnt data =
      (news ++ (freshH dates data).map (mkHRec now sym),
       upds ++ (hitsH dates data).map (mkHRec now sym),
       cnt + data.length)
  | [], news, upds, cnt => by simp [histLoop, freshH, hitsH]
  | it :: rest, news, upds, cnt => by
    by_cases hm : it.dateStr ∈ dates
    · rw [show histLoop now sym dates news upds cnt (it :: rest) =
            histLoop now sym dates news (upds ++ [mkHRec now sym it]) (cnt + 1) rest from by
          rw [histLoop, if_pos hm],
        histLoop_eq now sym dates rest news (upds ++ [mkHRec now sym it]) (cnt + 1),
        show freshH dates (it :: rest) = freshH dates rest from by simp [freshH, hm],
        show hitsH dates (it :: rest) = it :: hitsH dates rest from by simp [hitsH, hm]]
      refine Prod.ext rfl (Prod.ext ?_ ?_) <;> dsimp only
      · simp [List.append_assoc]
      · simp only [List.length_cons]
        omega
    · rw [show histLoop now sym dates news upds cnt (it :: rest) =
            histLoop now sym dates (news ++ [mkHRec now sym it]) upds (cnt + 1) rest from by
          rw [histLoop, if_neg hm],
        histLoop_eq now sym dates rest (news ++ [mkHRec now sym it]) upds (cnt + 1),
        show freshH dates (it :: rest) = it :: freshH dates rest from by simp [freshH, hm],
        show hitsH dates (it :: rest) = hitsH dates rest from by simp [hitsH, hm]]
      refine Prod.ext ?_ (Prod.ext rfl ?_) <;> dsimp only
      · simp [List.append_assoc]
      · simp only [List.length_cons]
        omega

theorem mem_histDates {sym d : String} {db : List HRow} :
    d ∈ histDates sym db ↔ (sym, d) ∈ db.map keyH := by
  induction db with
  | nil => simp [histDates]
  | cons r rs ih =>
    by_cases h : r.symbol = sym
    · simp only [histDates, if_pos h, List.mem_cons, ih, List.map_cons, keyH, Prod.ext_iff]
      constructor
      · rintro (rfl | hmem)
        · exact Or.inl ⟨h.symm, rfl⟩
        · exact Or.inr hmem
      · rintro (⟨-, rfl⟩ | hmem)
        · exact Or.inl rfl
        · exact Or.inr hmem
    · simp only [histDates, if_neg h, ih, List.map_cons, List.mem_cons, keyH, Prod.ext_iff]
      constructor
      · exact Or.inr
      · rintro (⟨hsym, -⟩ | hmem)
        · exact absurd hsym.symm h
        · exact hmem

theorem mem_freshH {dates : List String} {data : List HItem} {it : HItem}
    (h : it ∈ freshH dates data) : it ∈ data ∧ it.dateStr ∉ dates := by
  induction data with
  | nil => cases h
  | cons it0 rest ih =>
    by_cases hc : it0.dateStr ∈ dates
    · rw [freshH, if_pos hc] at h
      obtain ⟨h1, h2⟩ := ih h
      exact ⟨List.mem_cons_of_mem it0 h1, h2⟩
    · rw [freshH, if_neg hc] at h
      rcases List.mem_cons.mp h with rfl | hmem
      · exact ⟨List.mem_cons_self it rest, hc⟩
      · obtain ⟨h1, h2⟩ := ih hmem
        exact ⟨List.mem_cons_of_mem it0 h1, h2⟩

theorem mem_freshH_of {dates : List String} {data : List HItem} {it : HItem}
    (h : it ∈ data) (hk : it.dateStr ∉ dates) : it ∈ freshH dates data := by
  induction data with
  | nil => cases h
  | cons it0 rest ih =>
    rcases List.mem_cons.mp h with rfl | hmem
    · rw [freshH, if_neg hk]
      exact List.mem_cons_self it (freshH dates rest)
    · by_cases hc : it0.dateStr ∈ dates
      · rw [freshH, if_pos hc]
        exact ih hmem
      · rw [freshH, if_neg hc]
        exact List.mem_cons_of_mem it0 (ih hmem)

theorem mem_hitsH_dates {dates : List String} {data : List HItem} {d : String}
    (h : d ∈ (hitsH dates data).map HItem.dateStr) : d ∈ dates := by
  induction data with
  | nil => cases h
  | cons it0 rest ih =>
    by_cases hc : it0.dateStr ∈ dates
    · rw [show hitsH dates (it0 :: rest) = it0 :: hitsH dates rest from by
        simp [hitsH, hc], List.map_cons] at h
      rcases List.mem_cons.mp h with rfl | hmem
      · exact hc
      · exact ih hmem
    · rw [show hitsH dates (it0 :: rest) = hitsH dates rest from by simp [hitsH, hc]] at h
      exact ih h

theorem freshH_dateStr_sublist (dates : List String) (data : List HItem) :
    ((freshH dates data).map HItem.dateStr).Sublist (data.map HItem.dateStr) := by
  induction data with
  | nil => simp [freshH]
  | cons it rest ih =>
    by_cases hc : it.dateStr ∈ dates
    · rw [freshH, if_pos hc, List.map_cons]
      exact ih.cons it.dateStr
    · rw [freshH, if_neg hc, List.map_cons, List.map_cons]
      exact ih.cons₂ it.dateStr

theorem hitsH_dateStr_sublist (dates : List String) (data : List HItem) :
    ((hitsH dates data).map HItem.dateStr).Sublist (data.map HItem.dateStr) := by
  induction data with
  | nil => simp [hitsH]
  | cons it rest ih =>
    by_cases hc : it.dateStr ∈ dates
    · rw [hitsH, if_pos hc, List.map_cons, List.map_cons]
      exact ih.cons₂ it.dateStr
    · rw [hitsH, if_neg hc, List.map_cons]
      exact ih.cons it.dateStr

theorem findItemH_cons_ne {it : HItem} {d : String} (h : ¬ it.dateStr = d)
    (rest : List HItem) : findItemH d (it :: rest) = findItemH d rest := by
  simp [findItemH, h]

theorem findItemH_self {data : List HItem} (hdata : (data.map HItem.dateStr).Nodup)
    {it : HItem} (hmem : it ∈ data) : findItemH it.dateStr data = some it := by
  induction data with
  | nil => cases hmem
  | cons it0 rest ih =>
    simp only [List.map_cons, List.nodup_cons] at hdata
    rcases List.mem_cons.mp hmem with rfl | hmem2
    · rw [findItemH, if_pos rfl]
    · rw [findItemH_cons_ne, ih hdata.2 hmem2]
      intro he
      apply hdata.1
      rw [he]
      exact List.mem_map_of_mem HItem.dateStr hmem2

theorem hPatch_of_not_sym {now sym : String} {data : List HItem} {r : HRow}
    (hsym : ¬ r.symbol = sym) : hPatch now sym data r = r := by
  unfold hPatch
  rw [if_neg hsym]

theorem hPatch_eq_some {now sym : String} {data : List HItem} {r : HRow}
    (hsym : r.symbol = sym) {it : HItem} (h : findItemH r.date data = some it) :
    hPatch now sym data r = histOverwrite (mkHRec now sym it) r := by
  unfold hPatch
  rw [if_pos hsym, h]
  rfl

theorem hPatch_eq_none {now sym : String} {data : List HItem} {r : HRow}
    (hsym : r.symbol = sym) (h : findItemH r.date data = none) :
    hPatch now sym data r = r := by
  unfold hPatch
  rw [if_pos hsym, h]

theorem keyH_hPatch (now sym : String) (data : List HItem) (r : HRow) :
    keyH (hPatch now sym data r) = keyH r := by
  unfold hPatch
  split
  · split <;> rfl
  · rfl

theorem findRecH_hits_eq {now sym : String} {dates : List String} {data : List HItem}
    {r : HRow} (hsym : r.symbol = sym) (hrd : r.date ∈ dates) :
    findRecH r ((hitsH dates data).map (mkHRec now sym)) =
      (findItemH r.date data).map (mkHRec now sym) := by
  induction data with
  | nil => rfl
  | cons it rest ih =>
    by_cases hc : it.dateStr ∈ dates
    · rw [show hitsH dates (it :: rest) = it :: hitsH dates rest from by simp [hitsH, hc],
        List.map_cons, findRecH]
      by_cases hd : r.date = it.dateStr
      · rw [if_pos ⟨hsym, hd⟩, findItemH, if_pos hd.symm]
        rfl
      · rw [if_neg (fun hc2 => hd hc2.2), findItemH_cons_ne (fun he => hd he.symm)]
        exact ih
    · rw [show hitsH dates (it :: rest) = hitsH dates rest from by simp [hitsH, hc],
        findItemH_cons_ne (fun he => hc (he ▸ hrd))]
      exact ih

theorem processHistory_eq {now sym : String} {db : List HRow} {data : List HItem}
    (hdata : (data.map HItem.dateStr).Nodup) :
    processHistory now sym db data =
      (db.map (hPatch now sym data) ++
         (freshH (histDates sym db) data).map (mkHRec now sym),
       (freshH (histDates sym db) data).length,
       (hitsH (histDates sym db) data).length,
       data.length) := by
  have hmapdate : ((hitsH (histDates sym db) data).map (mkHRec now sym)).map HRow.date =
      (hitsH (histDates sym db) data).map HItem.dateStr := by
    rw [List.map_map]
    exact List.map_congr_left fun it _ => rfl
  have hrec : (((hitsH (histDates sym db) data).map (mkHRec now sym)).map HRow.date).Nodup := by
    rw [hmapdate]
    exact hdata.sublist (hitsH_dateStr_sublist _ _)
  unfold processHistory
  rw [histLoop_eq now sym (histDates sym db) data [] [] 0]
  dsimp only
  rw [List.nil_append, List.nil_append, foldl_applyHistUpdate_eq hrec, List.map_append]
  refine Prod.ext ?_ (by simp [List.length_map])
  dsimp only
  congr 1
  · refine List.map_congr_left ?_
    intro r hr
    by_cases hsym : r.symbol = sym
    · have hrd : r.date ∈ histDates sym db := by
        rw [mem_histDates]
        have hk : keyH r = (sym, r.date) := by simp [keyH, hsym]
        exact hk ▸ List.mem_map_of_mem keyH hr
      rw [findRecH_hits_eq hsym hrd]
      cases hf : findItemH r.date data with
      | none =>
        rw [hPatch_eq_none hsym hf]
        rfl
      | some it =>
        rw [hPatch_eq_some hsym hf]
        rfl
    · have hnone : findRecH r ((hitsH (histDates sym db) data).map (mkHRec now sym)) = none := by
        refine findRecH_eq_none_symbol ?_ hsym
        intro rd hrd
        obtain ⟨it, -, rfl⟩ := List.mem_map.mp hrd
        rfl
      rw [hnone, hPatch_of_not_sym hsym]
  · refine (List.map_congr_left ?_).trans (List.map_id _)
    intro r hr
    obtain ⟨it0, hit0, rfl⟩ := List.mem_map.mp hr
    have hnone : findRecH (mkHRec now sym it0)
        ((hitsH (histDates sym db) data).map (mkHRec now sym)) = none := by
      refine findRecH_eq_none ?_
      rw [hmapdate]
      intro hmem
      exact (mem_freshH hit0).2 (mem_hitsH_dates hmem)
    rw [hnone]
    rfl

theorem processHistory_fst_map_keyH {now sym : String} {db : List HRow}
    {data : List HItem} (hdata : (data.map HItem.dateStr).Nodup) :
    (processHistory now sym db data).1.map keyH =
      db.map keyH ++
        ((freshH (histDates sym db) data).map HItem.dateStr).map (fun d => (sym, d)) := by
  rw [processHistory_eq hdata]
  dsimp only
  rw [List.map_append, List.map_map, List.map_map,
    List.map_congr_left (fun r (_ : r ∈ db) =>
      show (keyH ∘ hPatch now sym data) r = keyH r from keyH_hPatch now sym data r)]
  congr 1
  rw [List.map_map]
  exact List.map_congr_left fun it _ => rfl

theorem processHistory_nodup {now sym : String} {db : List HRow} {data : List HItem}
    (hdb : (db.map keyH).Nodup) (hdata : (data.map HItem.dateStr).Nodup) :
    ((processHistory now sym db data).1.map keyH).Nodup := by
  rw [processHistory_fst_map_keyH hdata]
  refine hdb.append ?_ ?_
  · refine List.Nodup.map ?_ ((hdata.sublist (freshH_dateStr_sublist _ _)))
    intro a b hab
    simpa using hab
  · intro k hk hk2
    obtain ⟨d, hd, rfl⟩ := List.mem_map.mp hk2
    obtain ⟨it, hit, hdit⟩ := List.mem_map.mp hd
    exact (mem_freshH hit).2 (hdit ▸ mem_histDates.mpr hk)

theorem processHistoryMany_nodup {sym : String} :
    ∀ (runs : List (String × List HItem)) (db : List HRow),
    (db.map keyH).Nodup →
    (∀ run ∈ runs, (run.2.map HItem.dateStr).Nodup) →
    ((processHistoryMany sym db runs).map keyH).Nodup
  | [], db, hdb, _ => hdb
  | run :: rest, db, hdb, hruns => by
    rw [processHistoryMany]
    exact processHistoryMany_nodup rest _
      (processHistory_nodup hdb (hruns run (List.mem_cons_self run rest)))
      (fun r hr => hruns r (List.mem_cons_of_mem run hr))

theorem freshH_eq_nil {dates : List String} {data : List HItem}
    (h : ∀ it ∈ data, it.dateStr ∈ dates) : freshH dates data = [] := by
  induction data with
  | nil => rfl
  | cons it rest ih =>
    rw [freshH, if_pos (h it (List.mem_cons_self it rest))]
    exact ih fun it2 h2 => h it2 (List.mem_cons_of_mem it h2)

theorem hitsH_eq_self {dates : List String} {data : List HItem}
    (h : ∀ it ∈ data, it.dateStr ∈ dates) : hitsH dates data = data := by
  induction data with
  | nil => rfl
  | cons it rest ih =>
    rw [hitsH, if_pos (h it (List.mem_cons_self it rest))]
    rw [ih fun it2 h2 => h it2 (List.mem_cons_of_mem it h2)]

theorem stripUH_hPatch_twice {now1 now2 sym : String} {data : List HItem} (r0 : HRow) :
    stripUH (hPatch now2 sym data (hPatch now1 sym data r0)) =
      stripUH (hPatch now1 sym data r0) := by
  by_cases hsym : r0.symbol = sym
  · cases hfind : findItemH r0.date data with
    | none =>
      rw [hPatch_eq_none hsym hfind, hPatch_eq_none hsym hfind]
    | some it =>
      rw [hPatch_eq_some hsym hfind,
        hPatch_eq_some
          (show (histOverwrite (mkHRec now1 sym it) r0).symbol = sym from hsym)
          (show findItemH (histOverwrite (mkHRec now1 sym it) r0).date data = some it
            from hfind)]
      rfl
  · rw [hPatch_of_not_sym hsym, hPatch_of_not_sym hsym]

theorem stripUH_hPatch_mkHRec {now1 now2 sym : String} {data : List HItem}
    (hdata : (data.map HItem.dateStr).Nodup) {it0 : HItem} (hmem : it0 ∈ data) :
    stripUH (hPatch now2 sym data (mkHRec now1 sym it0)) =
      stripUH (mkHRec now1 sym it0) := by
  rw [hPatch_eq_some
    (show (mkHRec now1 sym it0).symbol = sym from rfl)
    (show findItemH (mkHRec now1 sym it0).date data = some it0 from
      findItemH_self hdata hmem)]
  rfl

theorem processHistory_idem {now1 now2 sym : String} {db : List HRow} {data : List HItem}
    (hdata : (data.map HItem.dateStr).Nodup) :
    (processHistory now2 sym (processHistory now1 sym db data).1 data).2.1 = 0 ∧
    (processHistory now2 sym (processHistory now1 sym db data).1 data).2.2.1 = data.length ∧
    (processHistory now2 sym (processHistory now1 sym db data).1 data).2.2.2 = data.length ∧
    (processHistory now2 sym (processHistory now1 sym db data).1 data).1.map stripUH =
      (processHistory now1 sym db data).1.map stripUH := by
  have hK : ∀ it ∈ data, it.dateStr ∈ histDates sym (processHistory now1 sym db data).1 := by
    intro it hmem
    rw [mem_histDates, processHistory_fst_map_keyH hdata]
    by_cases hk : it.dateStr ∈ histDates sym db
    · exact List.mem_append_left _ (mem_histDates.mp hk)
    · exact List.mem_append_right _
        (List.mem_map_of_mem _ (List.mem_map_of_mem _ (mem_freshH_of hmem hk)))
  have hfr : freshH (histDates sym (processHistory now1 sym db data).1) data = [] :=
    freshH_eq_nil hK
  have hht : hitsH (histDates sym (processHistory now1 sym db data).1) data = data :=
    hitsH_eq_self hK
  rw [processHistory_eq hdata]
  refine ⟨by rw [hfr]; rfl, by rw [hht], rfl, ?_⟩
  dsimp only
  rw [hfr]
  simp only [List.map_nil, List.append_nil, List.map_map]
  refine List.map_congr_left ?_
  intro r hr
  show stripUH (hPatch now2 sym data r) = stripUH r
  rw [processHistory_eq hdata] at hr
  dsimp only at hr
  rcases List.mem_append.mp hr with h1 | h2
  · obtain ⟨r0, hr0, rfl⟩ := List.mem_map.mp h1
    exact stripUH_hPatch_twice r0
  · obtain ⟨it0, hit0, rfl⟩ := List.mem_map.mp h2
    exact stripUH_hPatch_mkHRec hdata (mem_freshH hit0).1

/-! ## Lemmas: the financials field mapper -/

theorem applyFinMappings_append (snap : List (String × Cell)) :
    ∀ (l1 l2 : List (String × List String)) (flds : String → Option ℚ),
    applyFinMappings snap (l1 ++ l2) flds =
      applyFinMappings snap l2 (applyFinMappings snap l1 flds)
  | [], l2, flds => rfl
  | (df, ks) :: rest, l2, flds => by
    rw [List.cons_append, applyFinMappings, applyFinMappings,
      applyFinMappings_append snap rest l2 _]

theorem applyFinMappings_not_mem (snap : List (String × Cell)) {f : String} :
    ∀ {l : List (String × List String)}, (∀ p ∈ l, p.1 ≠ f) →
    ∀ (flds : String → Option ℚ), applyFinMappings snap l flds f = flds f
  | [], _, flds => rfl
  | (df, ks) :: rest, h, flds => by
    rw [applyFinMappings,
      applyFinMappings_not_mem snap (fun p hp => h p (List.mem_cons_of_mem _ hp)) _]
    cases hfc : firstCoercible snap ks with
    | none => rfl
    | some q =>
      show setFinField df q flds f = flds f
      unfold setFinField
      rw [if_neg (fun he => h (df, ks) (List.mem_cons_self _ rest) (he.symm))]

theorem finFieldMappings_fst_nodup : (finFieldMappings.map Prod.fst).Nodup := by decide

theorem updateFinancialsFields_split {snap : List (String × Cell)}
    {flds : String → Option ℚ} {df : String} {ks : List String}
    (hmem : (df, ks) ∈ finFieldMappings) :
    updateFinancialsFields flds snap df =
      (match firstCoercible snap ks with
       | some q => setFinField df q (fun _ => flds df)
       | none => fun _ => flds df) df := by
  obtain ⟨l1, l2, hsplit⟩ := List.append_of_mem hmem
  have hnd := finFieldMappings_fst_nodup
  rw [hsplit, List.map_append, List.map_cons, List.nodup_append] at hnd
  have hdf2 : ∀ p ∈ l2, p.1 ≠ df := by
    intro p hp he
    apply (List.nodup_cons.mp hnd.2.1).1
    rw [← he]
    exact List.mem_map.mpr ⟨p, hp, rfl⟩
  have hdf1 : ∀ p ∈ l1, p.1 ≠ df := by
    intro p hp he
    refine hnd.2.2 ?_ (List.mem_cons_self df (l2.map Prod.fst))
    rw [← he]
    exact List.mem_map.mpr ⟨p, hp, rfl⟩
  unfold updateFinancialsFields
  rw [hsplit, applyFinMappings_append, applyFinMappings,
    applyFinMappings_not_mem snap hdf2]
  cases hfc : firstCoercible snap ks with
  | none =>
    exact applyFinMappings_not_mem snap hdf1 flds
  | some q =>
    show setFinField df q (applyFinMappings snap l1 flds) df =
      setFinField df q (fun _ => flds df) df
    unfold setFinField
    rw [if_pos rfl, if_pos rfl]

/-- First-candidate-wins: if the lookup over the candidate list succeeds, the
destination column receives exactly that value. -/
theorem updateFinancialsFields_some {snap : List (String × Cell)}
    {flds : String → Option ℚ} {df : String} {ks : List String} {q : ℚ}
    (hmem : (df, ks) ∈ finFieldMappings) (hfc : firstCoercible snap ks = some q) :
    updateFinancialsFields flds snap df = some q := by
  rw [updateFinancialsFields_split hmem, hfc]
  show setFinField df q (fun _ => flds df) df = some q
  unfold setFinField
  rw [if_pos rfl]

/-- No candidate succeeds: the destination column is left untouched. -/
theorem updateFinancialsFields_none {snap : List (String × Cell)}
    {flds : String → Option ℚ} {df : String} {ks : List String}
    (hmem : (df, ks) ∈ finFieldMappings) (hfc : firstCoercible snap ks = none) :
    updateFinancialsFields flds snap df = flds df := by
  rw [updateFinancialsFields_split hmem, hfc]

/-! ## Lemmas: the two holder duplicate-detection strategies -/

/-- A holder snapshot row that carries both a non-empty, already-stripped
holder name and a reported date with a non-empty `%Y-%m-%d` part (which real
`strftime` output always has). -/
def HolderItem.wellFormed (it : HolderItem) : Prop :=
  (∃ h, it.holder = some h ∧ h ≠ "" ∧ pyStrip h = h) ∧
  (∃ d, it.dateReported = some d ∧ d.ymd ≠ "")

/-- The date string the institutional module persists. -/
def instDateOf (it : HolderItem) : String :=
  match it.dateReported with
  | some d => d.ymd
  | none => ""

/-- The date string the mutual-fund module persists. -/
def mfDateOf (it : HolderItem) : String :=
  match it.dateReported with
  | some d => pySlice d.isoStr 24
  | none => ""

/-- The row the institutional module inserts for a well-formed item on first
ingestion. -/
def instRowOf (now sym : String) (it : HolderItem) : HolderRow :=
  updInstHolderFields
    { symbol := sym, date := instDateOf it, holder := pyStrip (it.holder.getD ""),
      pct_held := none, shares := none, value := none, pct_change := none,
      created_at := now, updated_at := now } it

/-- The row the mutual-fund module inserts for a well-formed item on first
ingestion. -/
def mfRowOf (now sym : String) (it : HolderItem) : HolderRow :=
  updMfHolderFields
    { symbol := sym, date := mfDateOf it, holder := it.holder.getD "",
      pct_held := none, shares := none, value := none, pct_change := none,
      created_at := now, updated_at := now } it

/-- Agreement of two holder rows on everything except the persisted date
string. -/
def holderRowsAgree (a b : HolderRow) : Prop :=
  a.symbol = b.symbol ∧ a.holder = b.holder ∧ a.pct_held = b.pct_held ∧
  a.shares = b.shares ∧ a.value = b.value ∧ a.pct_change = b.pct_change ∧
  a.created_at = b.created_at ∧ a.updated_at = b.updated_at

instance (a b : HolderRow) : Decidable (holderRowsAgree a b) := by
  unfold holderRowsAgree
  infer_instance

theorem updInstHolderFields_eq (r : HolderRow) (it : HolderItem) :
    updInstHolderFields r it =
      { r with
        pct_held := match coerceCell it.pctHeld with
          | some q => some q
          | none => r.pct_held,
        shares := match coerceCell it.shares with
          | some q => some q
          | none => r.shares,
        value := match coerceCell it.value with
          | some q => some q
          | none => r.value,
        pct_change := match coerceCell it.pctChange with
          | some q => some q
          | none => r.pct_change } := by
  unfold updInstHolderFields
  cases coerceCell it.pctHeld <;> cases coerceCell it.shares <;>
    cases coerceCell it.value <;> cases coerceCell it.pctChange <;> rfl

theorem updMfHolderFields_eq_updInst (r : HolderRow) (it : HolderItem) :
    updMfHolderFields r it = updInstHolderFields r it := by
  unfold updMfHolderFields updInstHolderFields mfFieldMappings
  have h1 : firstCoercibleMf it ["pctHeld"] = coerceCell it.pctHeld := by
    cases h : coerceCell it.pctHeld <;>
      simp [firstCoercibleMf, holderItemGet, h]
  have h2 : firstCoercibleMf it ["Shares"] = coerceCell it.shares := by
    cases h : coerceCell it.shares <;>
      simp [firstCoercibleMf, holderItemGet, h]
  have h3 : firstCoercibleMf it ["Value"] = coerceCell it.value := by
    cases h : coerceCell it.value <;>
      simp [firstCoercibleMf, holderItemGet, h]
  have h4 : firstCoercibleMf it ["pctChange"] = coerceCell it.pctChange := by
    cases h : coerceCell it.pctChange <;>
      simp [firstCoercibleMf, holderItemGet, h]
  simp only [List.foldl_cons, List.foldl_nil, h1, h2, h3, h4]
  cases coerceCell it.pctHeld <;> cases coerceCell it.shares <;>
    cases coerceCell it.value <;> cases coerceCell it.pctChange <;>
    simp [setHolderField]

theorem instHoldersLoop_nil {now sym : String} :
    ∀ (data : List HolderItem) (news : List HolderRow) (upd : Nat),
    (∀ it ∈ data, it.wellFormed) →
    instHoldersLoop now sym [] [] news upd data =
      ([], news ++ data.map (instRowOf now sym), upd)
  | [], news, upd, _ => by simp [instHoldersLoop]
  | it :: rest, news, upd, hv => by
    obtain ⟨⟨h, hh, hne, htrim⟩, ⟨d, hd, hymd⟩⟩ := hv it (List.mem_cons_self it rest)
    have hvrest : ∀ it2 ∈ rest, it2.wellFormed :=
      fun it2 h2 => hv it2 (List.mem_cons_of_mem it h2)
    rw [instHoldersLoop, hh, hd]
    dsimp only
    rw [if_neg hne, if_neg (List.not_mem_nil _)]
    have hmk : mkInstHolderRow now sym d.ymd (pyStrip h) it =
        some (instRowOf now sym it) := by
      unfold mkInstHolderRow
      rw [if_neg (by
        rintro (hc | hc)
        · rw [htrim] at hc
          exact hne hc
        · exact hymd hc)]
      unfold instRowOf
      rw [show instDateOf it = d.ymd from by rw [instDateOf, hd], hh]
      rfl
    rw [hmk]
    dsimp only
    rw [instHoldersLoop_nil rest (news ++ [instRowOf now sym it]) upd hvrest,
      List.map_cons, List.append_assoc]
    rfl

theorem bulkProcessInstitutionalHolders_nil {now sym : String}
    {data : List HolderItem} (hv : ∀ it ∈ data, it.wellFormed) :
    bulkProcessInstitutionalHolders now sym [] data =
      (data.map (instRowOf now sym), data.length) := by
  unfold bulkProcessInstitutionalHolders
  rw [show instHolderKeys sym [] = [] from rfl,
    instHoldersLoop_nil data [] 0 hv]
  simp

theorem pySlice_isoStr_ne_empty (d : DateRep) : pySlice d.isoStr 24 ≠ "" := by
  unfold pySlice DateRep.isoStr
  intro hc
  have h0 : (d.ymd ++ "T" ++ d.timePart).toList.take 24 = ([] : List Char) :=
    congrArg String.data hc
  rw [List.take_eq_nil_iff] at h0
  rcases h0 with h24 | hnil
  · exact absurd h24 (by decide)
  · have h1 : (d.ymd ++ "T" ++ d.timePart).data = [] := hnil
    rw [String.data_append, String.data_append] at h1
    rcases List.append_eq_nil.mp h1 with ⟨h2, -⟩
    rcases List.append_eq_nil.mp h2 with ⟨-, hT⟩
    exact absurd hT (by decide)

theorem mfHoldersLoop_nil {now sym : String} :
    ∀ (data : List HolderItem) (pend : List HolderRow) (cnt : Nat),
    (∀ it ∈ data, it.wellFormed) →
    mfHoldersLoop now sym [] pend cnt data =
      .ok ([], pend ++ data.map (mfRowOf now sym), cnt + data.length)
  | [], pend, cnt, _ => by simp [mfHoldersLoop]
  | it :: rest, pend, cnt, hv => by
    obtain ⟨⟨h, hh, hne, htrim⟩, ⟨d, hd, hymd⟩⟩ := hv it (List.mem_cons_self it rest)
    have hvrest : ∀ it2 ∈ rest, it2.wellFormed :=
      fun it2 h2 => hv it2 (List.mem_cons_of_mem it h2)
    rw [mfHoldersLoop, hd]
    dsimp only
    rw [hh]
    dsimp only
    rw [if_neg (by
        rintro (hc | hc)
        · exact pySlice_isoStr_ne_empty d hc
        · exact hne hc),
      if_neg (by simp)]
    have hmk : mkMfHolderRow now sym (pySlice d.isoStr 24) it =
        some (mfRowOf now sym it) := by
      unfold mkMfHolderRow
      rw [hh]
      dsimp only
      rw [if_neg hne]
      unfold mfRowOf
      rw [show mfDateOf it = pySlice d.isoStr 24 from by rw [mfDateOf, hd], hh]
      rfl
    rw [hmk]
    dsimp only
    rw [mfHoldersLoop_nil rest (pend ++ [mfRowOf now sym it]) (cnt + 1) hvrest,
      List.map_cons, List.append_assoc, List.length_cons]
    refine congrArg Except.ok (Prod.ext rfl (Prod.ext rfl ?_))
    dsimp only
    omega

theorem bulkProcessMutualfundHolders_nil {now sym : String}
    {data : List HolderItem} (hv : ∀ it ∈ data, it.wellFormed) :
    bulkProcessMutualfundHolders now sym [] data =
      .ok (data.map (mfRowOf now sym), data.length) := by
  unfold bulkProcessMutualfundHolders
  rw [mfHoldersLoop_nil data [] 0 hv]
  simp

theorem holderRowsAgree_of_wellFormed {now sym : String} {it : HolderItem}
    (hv : it.wellFormed) :
    holderRowsAgree (instRowOf now sym it) (mfRowOf now sym it) := by
  obtain ⟨⟨h, hh, hne, htrim⟩, -⟩ := hv
  unfold instRowOf mfRowOf holderRowsAgree
  rw [updMfHolderFields_eq_updInst, updInstHolderFields_eq, updInstHolderFields_eq]
  refine ⟨rfl, ?_, rfl, rfl, rfl, rfl, rfl, rfl⟩
  show pyStrip (it.holder.getD "") = it.holder.getD ""
  rw [hh]
  exact htrim

theorem holderRows_forall2 {now sym : String} :
    ∀ {data : List HolderItem}, (∀ it ∈ data, it.wellFormed) →
    List.Forall₂ holderRowsAgree (data.map (instRowOf now sym)) (data.map (mfRowOf now sym))
  | [], _ => List.Forall₂.nil
  | it :: rest, hv => by
    rw [List.map_cons, List.map_cons]
    exact List.Forall₂.cons
      (holderRowsAgree_of_wellFormed (hv it (List.mem_cons_self it rest)))
      (holderRows_forall2 fun it2 h2 => hv it2 (List.mem_cons_of_mem it h2))

theorem instRowOf_date (now sym : String) (it : HolderItem) :
    (instRowOf now sym it).date = instDateOf it := by
  unfold instRowOf
  rw [updInstHolderFields_eq]

theorem mfRowOf_date (now sym : String) (it : HolderItem) :
    (mfRowOf now sym it).date = mfDateOf it := by
  unfold mfRowOf
  rw [updMfHolderFields_eq_updInst, updInstHolderFields_eq]

theorem instRows_dates (now sym : String) (data : List HolderItem) :
    (data.map (instRowOf now sym)).map HolderRow.date = data.map instDateOf := by
  rw [List.map_map]
  exact List.map_congr_left fun it _ => instRowOf_date now sym it

theorem mfRows_dates (now sym : String) (data : List HolderItem) :
    (data.map (mfRowOf now sym)).map HolderRow.date = data.map mfDateOf := by
  rw [List.map_map]
  exact List.map_congr_left fun it _ => mfRowOf_date now sym it

/-! ## Lemmas: zero-row skip -/

theorem actionsLoop_nonskip (now sym : String) (keys : List String) :
    ∀ (data : List AItem) (db news : List ARow) (upd : Nat),
    actionsLoop now sym keys db news upd data =
      actionsLoop now sym keys db news upd (nonskipA data)
  | [], _, _, _ => rfl
  | it :: rest, db, news, upd => by
    by_cases hs : it.div = 0 ∧ it.sp = 0
    · rw [actionsLoop, if_pos hs,
        show nonskipA (it :: rest) = nonskipA rest from by simp [nonskipA, hs.1, hs.2],
        actionsLoop_nonskip now sym keys rest db news upd]
    · rw [show nonskipA (it :: rest) = it :: nonskipA rest from by simp [nonskipA, hs],
        actionsLoop, actionsLoop, if_neg hs, if_neg hs]
      by_cases hm : it.dateStr ∈ keys
      · rw [if_pos hm, if_pos hm,
          actionsLoop_nonskip now sym keys rest
            (updateLastA sym it.dateStr it.div it.sp now db) news (upd + 1)]
      · rw [if_neg hm, if_neg hm,
          actionsLoop_nonskip now sym keys rest db (news ++ [mkARow now sym it]) upd]

theorem processActions_nonskip (now sym : String) (db : List ARow) (data : List AItem) :
    processActions now sym db data = processActions now sym db (nonskipA data) := by
  unfold processActions
  rw [actionsLoop_nonskip now sym (actionsKeys sym db) data db [] 0]

theorem updateFirstA_append_no_match {sym d : String} {dv sp : ℚ} {now : String} :
    ∀ {xs : List ARow}, (∀ x ∈ xs, ¬(x.symbol = sym ∧ x.date = d)) →
    ∀ (ys : List ARow),
    updateFirstA sym d dv sp now (xs ++ ys) = xs ++ updateFirstA sym d dv sp now ys
  | [], _, ys => rfl
  | x :: xs, h, ys => by
    rw [List.cons_append, updateFirstA, if_neg (h x (List.mem_cons_self x xs)),
      updateFirstA_append_no_match (fun x2 h2 => h x2 (List.mem_cons_of_mem x h2)) ys]
    rfl

/-! ## The claims -/

/-- C1 — No duplication: for every symbol and every sequence of invocations of
the daily-history or actions bulk-process function against the same stored
state (each run's snapshot carrying pairwise-distinct normalised date keys, as
a snapshot is a table indexed by date), the storage ends with pairwise-distinct
composite `(symbol, date)` keys — exactly one row per distinct key; moreover an
incoming actions item whose key already exists in storage is never put into the
insert batch, so it is applied as an update, never inserted as a second row. -/
theorem claim_C1_no_duplication :
    (∀ (sym : String) (db : List ARow) (runs : List (String × List AItem)),
      (db.map keyA).Nodup →
      (∀ run ∈ runs, (run.2.map AItem.dateStr).Nodup) →
      ((processActionsMany sym db runs).map keyA).Nodup) ∧
    (∀ (sym : String) (db : List HRow) (runs : List (String × List HItem)),
      (db.map keyH).Nodup →
      (∀ run ∈ runs, (run.2.map HItem.dateStr).Nodup) →
      ((processHistoryMany sym db runs).map keyH).Nodup) ∧
    (∀ (sym : String) (db : List ARow) (data : List AItem) (it : AItem),
      it.dateStr ∈ actionsKeys sym db → it ∉ freshA (actionsKeys sym db) data) :=
  ⟨fun _ db runs hdb hruns => processActionsMany_nodup runs db hdb hruns,
   fun _ db runs hdb hruns => processHistoryMany_nodup runs db hdb hruns,
   fun _ _ _ _ hk hmem => (mem_freshA hmem).2.2 hk⟩

theorem claim_C1_no_duplication_witness :
    (((([] : List ARow)).map keyA).Nodup ∧
      (∀ run ∈ [("T1", [(⟨"2024-01-02", some 1, none⟩ : AItem)]),
                ("T2", [⟨"2024-01-02", some 2, none⟩, ⟨"2024-01-03", none, some 3⟩])],
        (run.2.map AItem.dateStr).Nodup)) ∧
    ((processActionsMany "AAPL" []
        [("T1", [⟨"2024-01-02", some 1, none⟩]),
         ("T2", [⟨"2024-01-02", some 2, none⟩, ⟨"2024-01-03", none, some 3⟩])]).map
        keyA).Nodup :=
  ⟨⟨by decide, by decide⟩,
   claim_C1_no_duplication.1 "AAPL" []
     [("T1", [⟨"2024-01-02", some 1, none⟩]),
      ("T2", [⟨"2024-01-02", some 2, none⟩, ⟨"2024-01-03", none, some 3⟩])]
     (by decide) (by decide)⟩

/-- C2 — Idempotence: re-running the actions or history bulk-process function
with the unchanged snapshot immediately after a first run performs zero
inserts and exactly N updates — N being the number of non-skippable snapshot
rows (every row, for history) — and leaves every persisted field except
`updated_at` unchanged. -/
theorem claim_C2_idempotence :
    (∀ (now1 now2 sym : String) (db : List ARow) (data : List AItem),
      (db.map keyA).Nodup → (data.map AItem.dateStr).Nodup →
      (processActions now2 sym (processActions now1 sym db data).1 data).2.1 = 0 ∧
      (processActions now2 sym (processActions now1 sym db data).1 data).2.2 =
        (nonskipA data).length ∧
      (processActions now2 sym (processActions now1 sym db data).1 data).1.map stripUA =
        (processActions now1 sym db data).1.map stripUA) ∧
    (∀ (now1 now2 sym : String) (db : List HRow) (data : List HItem),
      (data.map HItem.dateStr).Nodup →
      (processHistory now2 sym (processHistory now1 sym db data).1 data).2.1 = 0 ∧
      (processHistory now2 sym (processHistory now1 sym db data).1 data).2.2.1 =
        data.length ∧
      (processHistory now2 sym (processHistory now1 sym db data).1 data).1.map stripUH =
        (processHistory now1 sym db data).1.map stripUH) :=
  ⟨fun _ _ _ _ _ hdb hdata => processActions_idem hdb hdata,
   fun _ _ _ _ _ hdata =>
     ⟨(processHistory_idem hdata).1, (processHistory_idem hdata).2.1,
      (processHistory_idem hdata).2.2.2⟩⟩

theorem claim_C2_idempotence_witness :
    ((([(⟨"AAPL", "2020-01-01", 2, 0, "T0", "T0"⟩ : ARow)]).map keyA).Nodup ∧
      (([(⟨"2024-01-02", some 1, none⟩ : AItem), ⟨"2024-01-03", none, none⟩]).map
        AItem.dateStr).Nodup) ∧
    (processActions "T2" "AAPL"
        (processActions "T1" "AAPL" [⟨"AAPL", "2020-01-01", 2, 0, "T0", "T0"⟩]
          [⟨"2024-01-02", some 1, none⟩, ⟨"2024-01-03", none, none⟩]).1
        [⟨"2024-01-02", some 1, none⟩, ⟨"2024-01-03", none, none⟩]).2.1 = 0 ∧
    (processActions "T2" "AAPL"
        (processActions "T1" "AAPL" [⟨"AAPL", "2020-01-01", 2, 0, "T0", "T0"⟩]
          [⟨"2024-01-02", some 1, none⟩, ⟨"2024-01-03", none, none⟩]).1
        [⟨"2024-01-02", some 1, none⟩, ⟨"2024-01-03", none, none⟩]).2.2 =
      (nonskipA [⟨"2024-01-02", some 1, none⟩, ⟨"2024-01-03", none, none⟩]).length :=
  ⟨⟨by decide, by decide⟩,
   (claim_C2_idempotence.1 "T1" "T2" "AAPL" [⟨"AAPL", "2020-01-01", 2, 0, "T0", "T0"⟩]
     [⟨"2024-01-02", some 1, none⟩, ⟨"2024-01-03", none, none⟩]
     (by decide) (by decide)).1,
   (claim_C2_idempotence.1 "T1" "T2" "AAPL" [⟨"AAPL", "2020-01-01", 2, 0, "T0", "T0"⟩]
     [⟨"2024-01-02", some 1, none⟩, ⟨"2024-01-03", none, none⟩]
     (by decide) (by decide)).2.1⟩

/-- C3 counterexample: a successful `insert_stock_actions` call performs two
`session.commit()` invocations — the explicit one inside the `with` block and
the one `session_scope` runs when the block exits — so "exactly one commit
occurs per call on the success path" is false as stated. -/
theorem claim_C3_counterexample :
    (insertStockActions "T1" "AAPL" [] (.ok [⟨"2024-01-02", some 1, none⟩]) false).err
        = none ∧
    (insertStockActions "T1" "AAPL" [] (.ok [⟨"2024-01-02", some 1, none⟩]) false).commits
        = 2 ∧
    ¬ ((insertStockActions "T1" "AAPL" [] (.ok [⟨"2024-01-02", some 1, none⟩])
        false).commits = 1) := by
  refine ⟨rfl, rfl, ?_⟩
  decide

/-- C3 (amended) — Error atomicity and swallowing: on a fetch failure or an
exception inside the transaction, `insert_stock_actions` returns 0, logs an
error message containing the security identifier, swallows the exception (the
model is a total function), and the durable table is exactly the pre-call
table (the open transaction was rolled back, one rollback invocation); on the
success path no rollback occurs, the row count is returned, and exactly two
commit invocations happen — the wrapper's explicit `session.commit()` plus the
trailing one of `session_scope`, the latter committing an empty transaction. -/
theorem claim_C3_amended :
    (∀ (now sym : String) (db : List ARow) (pr : Bool),
      (insertStockActions now sym db .fail pr).db = db ∧
      (insertStockActions now sym db .fail pr).ret = 0 ∧
      (insertStockActions now sym db .fail pr).rollbacks = 0 ∧
      (insertStockActions now sym db .fail pr).err = some (actionsErrMsg sym)) ∧
    (∀ (now sym : String) (db : List ARow) (data : List AItem),
      data ≠ [] →
      (insertStockActions now sym db (.ok data) true).db = db ∧
      (insertStockActions now sym db (.ok data) true).ret = 0 ∧
      (insertStockActions now sym db (.ok data) true).commits = 0 ∧
      (insertStockActions now sym db (.ok data) true).rollbacks = 1 ∧
      (insertStockActions now sym db (.ok data) true).err = some (actionsErrMsg sym)) ∧
    (∀ (now sym : String) (db : List ARow) (data : List AItem),
      data ≠ [] →
      (insertStockActions now sym db (.ok data) false).commits = 2 ∧
      (insertStockActions now sym db (.ok data) false).rollbacks = 0 ∧
      (insertStockActions now sym db (.ok data) false).err = none ∧
      (insertStockActions now sym db (.ok data) false).db =
        (processActions now sym db data).1 ∧
      (insertStockActions now sym db (.ok data) false).ret =
        (processActions now sym db data).2.1 + (processActions now sym db data).2.2) ∧
    (∀ sym : String, ∃ a b, actionsErrMsg sym = a ++ sym ++ b) := by
  refine ⟨fun _ _ _ _ => ⟨rfl, rfl, rfl, rfl⟩, ?_, ?_, ?_⟩
  · intro now sym db data hne
    unfold insertStockActions
    dsimp only
    rw [if_neg hne]
    exact ⟨rfl, rfl, rfl, rfl, rfl⟩
  · intro now sym db data hne
    unfold insertStockActions
    dsimp only
    rw [if_neg hne]
    exact ⟨rfl, rfl, rfl, rfl, rfl⟩
  · intro sym
    exact ⟨"Error inserting actions data for ", ": exception", rfl⟩

theorem claim_C3_amended_witness :
    ([(⟨"2024-01-02", some 1, none⟩ : AItem)] ≠ []) ∧
    (insertStockActions "T1" "AAPL" [] (.ok [⟨"2024-01-02", some 1, none⟩]) true).db
        = [] ∧
    (insertStockActions "T1" "AAPL" [] (.ok [⟨"2024-01-02", some 1, none⟩]) true).rollbacks
        = 1 :=
  ⟨by decide,
   (claim_C3_amended.2.1 "T1" "AAPL" [] [⟨"2024-01-02", some 1, none⟩] (by decide)).1,
   (claim_C3_amended.2.1 "T1" "AAPL" [] [⟨"2024-01-02", some 1, none⟩] (by decide)).2.2.2.1⟩

/-- C4 counterexample: in the daily-history update path, a NaN `Open` cell
does not leave the persisted value untouched — it overwrites the column with
`NULL`: a stored row with `open = 100` updated from a snapshot whose `Open` is
NaN ends with `open = NULL`, not `100`. -/
theorem claim_C4_counterexample :
    (processHistory "T1" "AAPL"
        [⟨"AAPL", "2024-01-02", some 100, some 105, some 99, some 102, some 1000,
          "T0", "T0"⟩]
        [⟨"2024-01-02", Cell.nan, Cell.absent, Cell.absent, Cell.absent,
          Cell.absent⟩]).1.map (fun r => r.opn) = [none] ∧
    ¬ ((processHistory "T1" "AAPL"
        [⟨"AAPL", "2024-01-02", some 100, some 105, some 99, some 102, some 1000,
          "T0", "T0"⟩]
        [⟨"2024-01-02", Cell.nan, Cell.absent, Cell.absent, Cell.absent,
          Cell.absent⟩]).1.map (fun r => r.opn) = [some 100]) := by
  refine ⟨by decide, by decide⟩

/-- C4 (amended) — Null-preserving update holds for the financials field
mapper: a destination column whose every candidate source field is absent,
null/NaN or non-coercible is left untouched on update and `NULL` on insert;
the daily-history update path, by contrast, unconditionally overwrites all
five numeric columns with the freshly coerced values, so an absent/NaN source
value replaces the previously persisted value with `NULL` there. -/
theorem claim_C4_amended :
    (∀ (snap : List (String × Cell)) (flds : String → Option ℚ) (df : String)
        (ks : List String),
      (df, ks) ∈ finFieldMappings → firstCoercible snap ks = none →
      updateFinancialsFields flds snap df = flds df) ∧
    (∀ (snap : List (String × Cell)) (df : String) (ks : List String),
      (df, ks) ∈ finFieldMappings → firstCoercible snap ks = none →
      createFinancialsFields snap df = none) ∧
    (∀ (now sym : String) (r : HRow) (it : HItem),
      r.symbol = sym → r.date = it.dateStr →
      (processHistory now sym [r] [it]).1 =
        [{ r with opn := coerceCell it.opn, high := coerceCell it.high,
                  low := coerceCell it.low, close := coerceCell it.close,
                  volume := coerceCell it.volume, updated_at := now }]) := by
  refine ⟨fun snap flds df ks hmem hfc => updateFinancialsFields_none hmem hfc,
    fun snap df ks hmem hfc => updateFinancialsFields_none hmem hfc, ?_⟩
  intro now sym r it hsym hdate
  have hdata : ([it].map HItem.dateStr).Nodup := by simp
  have hdates : histDates sym [r] = [r.date] := by simp [histDates, hsym]
  rw [processHistory_eq hdata]
  dsimp only
  rw [hdates,
    show freshH [r.date] [it] = [] from by
      rw [freshH, if_pos (List.mem_singleton.mpr hdate.symm)]
      rfl,
    List.map_nil, List.append_nil, List.map_cons, List.map_nil,
    hPatch_eq_some hsym (show findItemH r.date [it] = some it from by
      rw [findItemH, if_pos hdate.symm])]
  rfl

theorem claim_C4_amended_witness :
    (("gross_profit", ["Gross Profit"]) ∈ finFieldMappings ∧
      firstCoercible [("Total Revenue", Cell.num 500)] ["Gross Profit"] = none) ∧
    updateFinancialsFields (fun f => if f = "gross_profit" then some 100 else none)
        [("Total Revenue", Cell.num 500)] "gross_profit" = some 100 ∧
    createFinancialsFields [("Total Revenue", Cell.num 500)] "gross_profit" = none :=
  ⟨⟨by decide, by decide⟩,
   claim_C4_amended.1 [("Total Revenue", Cell.num 500)]
     (fun f => if f = "gross_profit" then some 100 else none) "gross_profit"
     ["Gross Profit"] (by decide) (by decide),
   claim_C4_amended.2.1 [("Total Revenue", Cell.num 500)] "gross_profit"
     ["Gross Profit"] (by decide) (by decide)⟩

/-- C5 — Zero-row skip: a corporate-actions snapshot row whose `Dividends` and
`Stock Splits` are both `0.0` (NaN/absent counting as `0.0`) changes nothing:
the whole run behaves exactly as if the skippable rows were not in the
snapshot, and a snapshot consisting of a single skippable row inserts
nothing, updates nothing and returns count 0. -/
theorem claim_C5_zero_row_skip :
    (∀ (now sym : String) (db : List ARow) (data : List AItem),
      processActions now sym db data = processActions now sym db (nonskipA data)) ∧
    (∀ (now sym : String) (db : List ARow) (it : AItem),
      it.div = 0 ∧ it.sp = 0 →
      processActions now sym db [it] = (db, 0, 0)) := by
  refine ⟨processActions_nonskip, ?_⟩
  intro now sym db it hs
  rw [processActions_nonskip,
    show nonskipA [it] = [] from by simp [nonskipA, hs.1, hs.2]]
  unfold processActions actionsLoop
  simp

theorem claim_C5_zero_row_skip_witness :
    ((⟨"2024-01-02", none, some 0⟩ : AItem).div = 0 ∧
      (⟨"2024-01-02", none, some 0⟩ : AItem).sp = 0) ∧
    processActions "T1" "AAPL" [⟨"AAPL", "2020-01-01", 2, 0, "T0", "T0"⟩]
        [⟨"2024-01-02", none, some 0⟩] =
      ([⟨"AAPL", "2020-01-01", 2, 0, "T0", "T0"⟩], 0, 0) :=
  ⟨by decide,
   claim_C5_zero_row_skip.2 "T1" "AAPL" [⟨"AAPL", "2020-01-01", 2, 0, "T0", "T0"⟩]
     ⟨"2024-01-02", none, some 0⟩ (by decide)⟩

/-- C6 — Fallback field priority: the first candidate source field (in the
mapping's priority order) that is present and numerically coercible is the
value persisted, and later candidates are never consulted once one succeeds —
the `Operating Revenue` cell may hold anything and `total_revenue` is still
500; with `Total Revenue=500` and `Operating Revenue=400` the persisted
`total_revenue` is 500 and `operating_revenue` (whose first candidate is
`Operating Revenue`) is 400. -/
theorem claim_C6_fallback_priority :
    (∀ (snap : List (String × Cell)) (flds : String → Option ℚ) (df : String)
        (ks : List String) (q : ℚ),
      (df, ks) ∈ finFieldMappings → firstCoercible snap ks = some q →
      updateFinancialsFields flds snap df = some q) ∧
    (∀ (flds : String → Option ℚ) (c : Cell),
      updateFinancialsFields flds
        [("Total Revenue", Cell.num 500), ("Operating Revenue", c)]
        "total_revenue" = some 500) ∧
    (∀ flds : String → Option ℚ,
      updateFinancialsFields flds
        [("Total Revenue", Cell.num 500), ("Operating Revenue", Cell.num 400)]
        "operating_revenue" = some 400) := by
  refine ⟨fun _ _ _ _ _ hmem hfc => updateFinancialsFields_some hmem hfc, ?_, ?_⟩
  · intro flds c
    exact @updateFinancialsFields_some
      [("Total Revenue", Cell.num 500), ("Operating Revenue", c)] flds
      "total_revenue" ["Total Revenue", "Operating Revenue"] 500 (by decide) rfl
  · intro flds
    exact @updateFinancialsFields_some
      [("Total Revenue", Cell.num 500), ("Operating Revenue", Cell.num 400)] flds
      "operating_revenue" ["Operating Revenue", "Total Revenue"] 400 (by decide) rfl

theorem claim_C6_fallback_priority_witness :
    (("total_revenue", ["Total Revenue", "Operating Revenue"]) ∈ finFieldMappings ∧
      firstCoercible [("Total Revenue", Cell.num 500), ("Operating Revenue", Cell.num 400)]
        ["Total Revenue", "Operating Revenue"] = some 500) ∧
    updateFinancialsFields (fun _ => none)
      [("Total Revenue", Cell.num 500), ("Operating Revenue", Cell.num 400)]
      "total_revenue" = some 500 :=
  ⟨⟨by decide, by decide⟩,
   claim_C6_fallback_priority.1
     [("Total Revenue", Cell.num 500), ("Operating Revenue", Cell.num 400)]
     (fun _ => none) "total_revenue" ["Total Revenue", "Operating Revenue"] 500
     (by decide) (by decide)⟩

/-- C7 counterexample: on the same single-row snapshot and empty prior state,
the institutional processor persists the 10-character date `2024-01-15` while
the mutual-fund processor persists the isoformat prefix
`2024-01-15T00:00:00`, so the two strategies do not produce identical
persisted rows. -/
theorem claim_C7_counterexample :
    (bulkProcessInstitutionalHolders "T0" "AAPL" []
        [⟨some "BlackRock", some ⟨"2024-01-15", "00:00:00"⟩,
          Cell.num 7, Cell.num 100, Cell.num 5000, Cell.num 1⟩]).1.map
        HolderRow.date = ["2024-01-15"] ∧
    (match bulkProcessMutualfundHolders "T0" "AAPL" []
        [⟨some "BlackRock", some ⟨"2024-01-15", "00:00:00"⟩,
          Cell.num 7, Cell.num 100, Cell.num 5000, Cell.num 1⟩] with
      | .ok p => p.1.map HolderRow.date
      | .error _ => []) = ["2024-01-15T00:00:00"] ∧
    ¬ ((bulkProcessInstitutionalHolders "T0" "AAPL" []
        [⟨some "BlackRock", some ⟨"2024-01-15", "00:00:00"⟩,
          Cell.num 7, Cell.num 100, Cell.num 5000, Cell.num 1⟩]).1 =
      (match bulkProcessMutualfundHolders "T0" "AAPL" []
          [⟨some "BlackRock", some ⟨"2024-01-15", "00:00:00"⟩,
            Cell.num 7, Cell.num 100, Cell.num 5000, Cell.num 1⟩] with
        | .ok p => p.1
        | .error _ => [])) := by
  refine ⟨by decide, by decide, by decide⟩

/-- C7 (amended) — the two holder duplicate-detection strategies agree on the
partition and on every persisted field except the date key format: on first
ingestion of a snapshot of well-formed rows (holder present, non-empty,
already stripped; date present with non-empty `%Y-%m-%d` part), both return
the same count (the number of rows) and persist pairwise-agreeing rows — same
symbol, holder, numeric fields and timestamps — but the institutional rows
carry the 10-character `%Y-%m-%d` date while the mutual-fund rows carry the
24-character isoformat prefix, so the rows are not identical. -/
theorem claim_C7_amended :
    ∀ (now sym : String) (data : List HolderItem),
    (∀ it ∈ data, it.wellFormed) →
    bulkProcessInstitutionalHolders now sym [] data =
      (data.map (instRowOf now sym), data.length) ∧
    bulkProcessMutualfundHolders now sym [] data =
      .ok (data.map (mfRowOf now sym), data.length) ∧
    List.Forall₂ holderRowsAgree (data.map (instRowOf now sym))
      (data.map (mfRowOf now sym)) ∧
    (data.map (instRowOf now sym)).map HolderRow.date = data.map instDateOf ∧
    (data.map (mfRowOf now sym)).map HolderRow.date = data.map mfDateOf :=
  fun now sym data hv =>
    ⟨bulkProcessInstitutionalHolders_nil hv,
     bulkProcessMutualfundHolders_nil hv,
     holderRows_forall2 hv,
     instRows_dates now sym data,
     mfRows_dates now sym data⟩

theorem claim_C7_amended_witness :
    (∀ it ∈ [(⟨some "BlackRock", some ⟨"2024-01-15", "00:00:00"⟩,
        Cell.num 7, Cell.nan, Cell.num 5000, Cell.absent⟩ : HolderItem)],
      it.wellFormed) ∧
    bulkProcessInstitutionalHolders "T0" "AAPL"
        [] [⟨some "BlackRock", some ⟨"2024-01-15", "00:00:00"⟩,
          Cell.num 7, Cell.nan, Cell.num 5000, Cell.absent⟩] =
      ([instRowOf "T0" "AAPL"
          ⟨some "BlackRock", some ⟨"2024-01-15", "00:00:00"⟩,
            Cell.num 7, Cell.nan, Cell.num 5000, Cell.absent⟩], 1) := by
  have hv : ∀ it ∈ [(⟨some "BlackRock", some ⟨"2024-01-15", "00:00:00"⟩,
      Cell.num 7, Cell.nan, Cell.num 5000, Cell.absent⟩ : HolderItem)],
      it.wellFormed := by
    intro it hit
    rw [List.mem_singleton] at hit
    subst hit
    exact ⟨⟨"BlackRock", rfl, by decide, by decide⟩,
           ⟨⟨"2024-01-15", "00:00:00"⟩, rfl, by decide⟩⟩
  exact ⟨hv, (claim_C7_amended "T0" "AAPL" _ hv).1⟩

/-- C8 — Driver resilience: the daily driver attempts every security in the
list in order, regardless of failures; a security whose processing raises
contributes exactly one error string (containing its symbol) to the list
printed after the loop, and the run never aborts because of a single
security's failure. -/
theorem claim_C8_driver_resilience :
    ∀ (body : String → Except String Unit) (symbols : List String),
    (dailyLoop body symbols).1 = symbols ∧
    (dailyLoop body symbols).2 = symbols.filterMap (fun sym =>
      match body sym with
      | .ok _ => none
      | .error e => some (dailyErrMsg sym e))
  | body, [] => ⟨rfl, rfl⟩
  | body, sym :: rest => by
    obtain ⟨h1, h2⟩ := claim_C8_driver_resilience body rest
    cases hb : body sym with
    | ok u =>
      rw [dailyLoop, hb]
      refine ⟨?_, ?_⟩ <;> dsimp only
      · rw [h1]
      · rw [h2, List.filterMap_cons, hb]
    | error e =>
      rw [dailyLoop, hb]
      refine ⟨?_, ?_⟩ <;> dsimp only
      · rw [h1]
      · rw [h2, List.filterMap_cons, hb]

/-- C9 — totality of `safe_timestamp_to_str`: a `None` input yields `None`, an
input whose datetime conversion raises `ValueError`/`TypeError` yields `None`
rather than propagating (the model is a total function), and on success the
result is the ISO string truncated to at most 24 characters. -/
theorem claim_C9_safe_timestamp :
    safeTimestampToStr none = none ∧
    safeTimestampToStr (some TsVal.invalid) = none ∧
    (∀ s : String, safeTimestampToStr (some (TsVal.valid s)) = some (pySlice s 24)) ∧
    (∀ (t : Option TsVal) (r : String), safeTimestampToStr t = some r →
      r.length ≤ 24) := by
  refine ⟨rfl, rfl, fun s => rfl, ?_⟩
  intro t r h
  match t with
  | none => cases h
  | some TsVal.invalid => cases h
  | some (TsVal.valid s) =>
    rw [safeTimestampToStr] at h
    cases h
    show ((s.toList.take 24).asString).length ≤ 24
    rw [show ((s.toList.take 24).asString).length = (s.toList.take 24).length from rfl,
      List.length_take]
    exact Nat.min_le_left 24 _

theorem claim_C9_safe_timestamp_witness :
    safeTimestampToStr (some (TsVal.valid "2024-01-02T03:04:05.678901+09:00"))
        = some "2024-01-02T03:04:05.6789" ∧
    ("2024-01-02T03:04:05.6789" : String).length ≤ 24 :=
  ⟨by decide,
   claim_C9_safe_timestamp.2.2.2 (some (TsVal.valid "2024-01-02T03:04:05.678901+09:00"))
     "2024-01-02T03:04:05.6789" (by decide)⟩

/-- C10 — update frame of the actions reconciler: applying a non-skippable
incoming item patches exactly the matched record — its `dividends`,
`stock_splits` and `updated_at` are set, its `symbol`, `date` and
`created_at` are untouched — and every other record of the table is left
exactly as it was. -/
theorem claim_C10_update_frame :
    ∀ (sym d : String) (dv sp : ℚ) (now : String) (l1 l2 : List ARow) (r : ARow),
    r.symbol = sym → r.date = d →
    (∀ r2 ∈ l2, ¬(r2.symbol = sym ∧ r2.date = d)) →
    updateLastA sym d dv sp now (l1 ++ r :: l2) =
      l1 ++ patchARow dv sp now r :: l2 ∧
    (patchARow dv sp now r).symbol = r.symbol ∧
    (patchARow dv sp now r).date = r.date ∧
    (patchARow dv sp now r).created_at = r.created_at ∧
    (patchARow dv sp now r).dividends = dv ∧
    (patchARow dv sp now r).stock_splits = sp ∧
    (patchARow dv sp now r).updated_at = now := by
  intro sym d dv sp now l1 l2 r hsym hdate hno
  refine ⟨?_, rfl, rfl, rfl, rfl, rfl, rfl⟩
  unfold updateLastA
  rw [List.reverse_append, List.reverse_cons, List.append_assoc,
    updateFirstA_append_no_match (fun x hx => hno x (List.mem_reverse.mp hx)),
    List.singleton_append, updateFirstA, if_pos ⟨hsym, hdate⟩,
    List.reverse_append, List.reverse_cons, List.reverse_reverse,
    List.reverse_reverse, List.append_assoc, List.singleton_append]

theorem claim_C10_update_frame_witness :
    ((⟨"AAPL", "2024-01-02", 1, 0, "T0", "T0"⟩ : ARow).symbol = "AAPL" ∧
      (⟨"AAPL", "2024-01-02", 1, 0, "T0", "T0"⟩ : ARow).date = "2024-01-02" ∧
      (∀ r2 ∈ [(⟨"AAPL", "2024-01-05", 2, 0, "T0", "T0"⟩ : ARow)],
        ¬(r2.symbol = "AAPL" ∧ r2.date = "2024-01-02"))) ∧
    updateLastA "AAPL" "2024-01-02" 3 (1/2) "T1"
        ([⟨"MSFT", "2024-01-02", 9, 0, "T0", "T0"⟩] ++
          ⟨"AAPL", "2024-01-02", 1, 0, "T0", "T0"⟩ ::
          [⟨"AAPL", "2024-01-05", 2, 0, "T0", "T0"⟩]) =
      [⟨"MSFT", "2024-01-02", 9, 0, "T0", "T0"⟩] ++
        patchARow 3 (1/2) "T1" ⟨"AAPL", "2024-01-02", 1, 0, "T0", "T0"⟩ ::
        [⟨"AAPL", "2024-01-05", 2, 0, "T0", "T0"⟩] :=
  ⟨⟨by decide, by decide, by decide⟩,
   (claim_C10_update_frame "AAPL" "2024-01-02" 3 (1/2) "T1"
     [⟨"MSFT", "2024-01-02", 9, 0, "T0", "T0"⟩]
     [⟨"AAPL", "2024-01-05", 2, 0, "T0", "T0"⟩]
     ⟨"AAPL", "2024-01-02", 1, 0, "T0", "T0"⟩
     (by decide) (by decide) (by decide)).1⟩

end YFin
